import Mathlib

/-!
Verification development for the diffbreak-api repository.

Go strings are modelled as `List Char` (`Str`).  Byte-level operations
(`len`, slicing) are modelled at the character level.  Machine integers
(`int`) are modelled as `Int`; none of the modelled code paths can
overflow 64-bit integers for the quantities involved (scores, lengths,
HTTP status codes), so no modular reduction is inserted.
-/

namespace DiffBreak

/-- Go strings modelled as lists of characters. -/
abbrev Str := List Char

/-- Model of the whitespace class used by `strings.TrimSpace` /
`bytes.TrimSpace` (restricted to the ASCII whitespace characters that
can occur in the modelled data). -/
def isSpaceC (c : Char) : Bool :=
  c = ' ' || c = '\t' || c = '\n' || c = '\r'

/-- Model of `strings.TrimSpace` / `bytes.TrimSpace`: drop whitespace
from both ends. -/
def trimSpaceC (l : Str) : Str :=
  ((l.dropWhile isSpaceC).reverse.dropWhile isSpaceC).reverse

/-- Model of `strings.Trim(s, "/")`: drop slashes from both ends. -/
def trimSlashes (l : Str) : Str :=
  ((l.dropWhile (· = '/')).reverse.dropWhile (· = '/')).reverse

/-- Model of `strings.TrimSuffix`: remove `suf` once if it is a suffix. -/
def trimSuffixStr (suf l : Str) : Str :=
  if suf.isSuffixOf l then l.take (l.length - suf.length) else l

/-- Model of `strings.Split` on a single character separator.  Like Go's
`strings.Split`, the result is never empty and empty segments are kept. -/
def splitOnChar (sep : Char) : Str → List Str
  | [] => [[]]
  | c :: rest =>
    if c = sep then [] :: splitOnChar sep rest
    else
      match splitOnChar sep rest with
      | [] => [[c]]
      | s :: ss => (c :: s) :: ss

/-- ASCII lower-casing of one character, the case fold relevant for the
host names compared by the modelled code. -/
def toLowerC (c : Char) : Char :=
  if 'A' ≤ c ∧ c ≤ 'Z' then Char.ofNat (c.toNat + 32) else c

/-- Model of `strings.EqualFold` restricted to ASCII folding. -/
def eqFold (a b : Str) : Bool :=
  a.map toLowerC == b.map toLowerC

/-- Closed error taxonomy of the repository (`pkg/github.go` sentinel
errors) together with a model of arbitrary other Go errors:
`ghHTTP status` models a `*github.ErrorResponse` whose `Response` field
carries the given HTTP status (`none` models a nil `Response`), and
`other n` models any error that is not a GitHub error response. -/
inductive AppError where
  | repoNotFound
  | rateLimited
  | invalidRepoURL
  | ghHTTP (status : Option Int)
  | other (code : Nat)
deriving DecidableEq, Repr

/-- Model of `mapGitHubError` (`pkg/github_compare.go`): a GitHub error
response carrying HTTP 404 maps to `ErrRepoNotFound`, one carrying HTTP
403 maps to `ErrRateLimited`, everything else passes through unchanged.
(The Go function also passes a nil error through; nil errors are
modelled by success values of `Except`, so they never reach this
function in the model.) -/
def mapGitHubError : AppError → AppError
  | .ghHTTP (some s) =>
    if s = 404 then .repoNotFound
    else if s = 403 then .rateLimited
    else .ghHTTP (some s)
  | e => e

/-- Scheme, host and path of a parsed URL. -/
structure UrlParts where
  scheme : Str
  host : Str
  path : Str
deriving DecidableEq, Repr

/-- Model of `net/url.Parse` restricted to the shapes relevant here:
the input is split as `scheme://host/path` at the first colon and the
first slash after the authority; the scheme is lower-cased as `Parse`
does.  Inputs without a `scheme://` part are rejected; the modelled
caller treats a parse failure and a non-`https` scheme identically, so
this collapse does not change its observable behaviour.  Userinfo,
query, fragment and percent-escape handling are not modelled. -/
def parseURL (s : Str) : Option UrlParts :=
  let scheme := s.takeWhile (· ≠ ':')
  match s.dropWhile (· ≠ ':') with
  | ':' :: '/' :: '/' :: rest =>
    if scheme = [] then none
    else
      some ⟨scheme.map toLowerC, rest.takeWhile (· ≠ '/'), rest.dropWhile (· ≠ '/')⟩
  | _ => none

/-- Model of `ParseGitHubRepoURL` (`pkg/github.go`): trim whitespace,
reject empty input, parse as URL, require scheme `https` and host
`github.com` (case-insensitively), trim slashes around the path, reject
an empty path, strip one optional `.git` suffix, split the path on `/`
and require exactly two non-empty segments. -/
def ParseGitHubRepoURL (repoURL : Str) : Except AppError (Str × Str) :=
  let repoURL := trimSpaceC repoURL
  if repoURL = [] then .error .invalidRepoURL
  else
    match parseURL repoURL with
    | none => .error .invalidRepoURL
    | some u =>
      if u.scheme ≠ "https".toList then .error .invalidRepoURL
      else if ¬ eqFold u.host "github.com".toList then .error .invalidRepoURL
      else
        let path := trimSlashes u.path
        if path = [] then .error .invalidRepoURL
        else
          let path := trimSuffixStr ".git".toList path
          match splitOnChar '/' path with
          | [owner, repo] =>
            if owner = [] ∨ repo = [] then .error .invalidRepoURL
            else .ok (owner, repo)
          | _ => .error .invalidRepoURL

/-! ### JSON values

Model of the JSON documents exchanged with the model service.  Integral
JSON number literals are carried as `Int`; a number literal with a
fraction or exponent part is represented by `numNonInt`, since
`encoding/json` refuses to decode such a literal into a Go `int` field
(the only numeric field of the modelled structures). -/

inductive Json where
  | null
  | bool (b : Bool)
  | num (n : Int)
  | numNonInt
  | str (s : Str)
  | arr (elems : List Json)
  | obj (fields : List (Str × Json))

/-- Last binding of `key` in an object's field list, modelling that
`encoding/json` lets a later duplicate key overwrite an earlier one. -/
def lookupJson (fields : List (Str × Json)) (key : Str) : Option Json :=
  match fields with
  | [] => none
  | (k, v) :: rest =>
    match lookupJson rest key with
    | some r => some r
    | none => if k = key then some v else none

/-- Value of a field of a JSON object, with a missing field modelled as
`null` (for the Go struct decoder both leave the field at its zero
value). -/
def getFieldJ (fields : List (Str × Json)) (key : Str) : Json :=
  (lookupJson fields key).getD .null

/-- Go `string` field decoding: `null` (and a missing field) leaves the
zero value `""`, a JSON string is taken verbatim, anything else is a
decode error. -/
def decStr : Json → Option Str
  | .null => some []
  | .str s => some s
  | _ => none

/-- Go `int` field decoding: `null` leaves `0`, an integral number
literal is taken, anything else (including non-integral literals) is a
decode error. -/
def decInt : Json → Option Int
  | .null => some 0
  | .num n => some n
  | _ => none

/-- Elementwise decoding of a JSON array body; any element error aborts
the whole decode, as in `encoding/json`. -/
def decList (f : Json → Option α) : List Json → Option (List α)
  | [] => some []
  | j :: rest =>
    match f j, decList f rest with
    | some a, some tl => some (a :: tl)
    | _, _ => none

/-- Go slice field decoding: `null` (and a missing field) yields a nil
slice (`none`), a JSON array yields a non-nil slice (`some`, possibly
empty), anything else is a decode error. -/
def decArr (f : Json → Option α) : Json → Option (Option (List α))
  | .null => some none
  | .arr xs => (decList f xs).map some
  | _ => none

/-! ### The AnalyzeResponse contract (`pkg/types.go`)

Go nil-able slices are modelled as `Option (List _)` (`none` = nil
slice), which is the distinction `encoding/json` surfaces (`null`
versus `[...]`). -/

/-- Model of `RiskInfo`. -/
structure RiskInfo where
  level : Str
  score : Int
  confidence : Str
  reasons : Option (List Str)
deriving DecidableEq, Repr

/-- Model of `GroupedSummary`. -/
structure GroupedSummary where
  title : Str
  items : Option (List Str)
deriving DecidableEq, Repr

/-- Model of `SummaryInfo`. -/
structure SummaryInfo where
  highlights : Option (List Str)
  grouped : Option (List GroupedSummary)
deriving DecidableEq, Repr

/-- Model of `EvidenceLink`. -/
structure EvidenceLink where
  label : Str
  url : Str
deriving DecidableEq, Repr

/-- Model of `Breaker`. -/
structure Breaker where
  title : Str
  severity : Str
  reason : Str
  evidence : Option (List EvidenceLink)
deriving DecidableEq, Repr

/-- Model of `BehaviorChange`. -/
structure BehaviorChange where
  title : Str
  reason : Str
  evidence : Option (List EvidenceLink)
deriving DecidableEq, Repr

/-- Model of `UpgradeStep`. -/
structure UpgradeStep where
  step : Str
  why : Str
  evidence : Option (List EvidenceLink)
deriving DecidableEq, Repr

/-- Model of `EvidenceItem`. -/
structure EvidenceItem where
  label : Str
  url : Str
  kind : Str
deriving DecidableEq, Repr

/-- Model of `RepoMeta`. -/
structure RepoMeta where
  url : Str
deriving DecidableEq, Repr

/-- Model of `MetaInfo`. -/
structure MetaInfo where
  repo : RepoMeta
  fromTag : Str
  toTag : Str
  generatedAt : Str
deriving DecidableEq, Repr

/-- Model of `AnalyzeResponse`. -/
structure AnalyzeResponse where
  risk : RiskInfo
  summary : SummaryInfo
  breakers : Option (List Breaker)
  behaviorChanges : Option (List BehaviorChange)
  upgradeSteps : Option (List UpgradeStep)
  evidence : Option (List EvidenceItem)
  meta : MetaInfo
deriving DecidableEq, Repr

/-! ### Decoding a JSON value into `AnalyzeResponse`

Model of `json.Unmarshal(raw, &resp)` for the shape above, following
Go struct-decoding semantics: unknown keys are ignored, a missing or
`null` field keeps the zero value, a type-mismatched field aborts with
an error.  (Go's case-insensitive key fallback is not modelled.) -/

/-- Zero value of `RiskInfo`. -/
def zeroRisk : RiskInfo := ⟨[], 0, [], none⟩

/-- Decoder for `RiskInfo`. -/
def decodeRisk : Json → Option RiskInfo
  | .null => some zeroRisk
  | .obj fs => do
    let level ← decStr (getFieldJ fs "level".toList)
    let score ← decInt (getFieldJ fs "score".toList)
    let confidence ← decStr (getFieldJ fs "confidence".toList)
    let reasons ← decArr decStr (getFieldJ fs "reasons".toList)
    some ⟨level, score, confidence, reasons⟩
  | _ => none

/-- Decoder for `GroupedSummary`. -/
def decodeGrouped : Json → Option GroupedSummary
  | .null => some ⟨[], none⟩
  | .obj fs => do
    let title ← decStr (getFieldJ fs "title".toList)
    let items ← decArr decStr (getFieldJ fs "items".toList)
    some ⟨title, items⟩
  | _ => none

/-- Decoder for `SummaryInfo`. -/
def decodeSummary : Json → Option SummaryInfo
  | .null => some ⟨none, none⟩
  | .obj fs => do
    let highlights ← decArr decStr (getFieldJ fs "highlights".toList)
    let grouped ← decArr decodeGrouped (getFieldJ fs "grouped".toList)
    some ⟨highlights, grouped⟩
  | _ => none

/-- Decoder for `EvidenceLink`. -/
def decodeEvidenceLink : Json → Option EvidenceLink
  | .null => some ⟨[], []⟩
  | .obj fs => do
    let label ← decStr (getFieldJ fs "label".toList)
    let url ← decStr (getFieldJ fs "url".toList)
    some ⟨label, url⟩
  | _ => none

/-- Decoder for `Breaker`. -/
def decodeBreaker : Json → Option Breaker
  | .null => some ⟨[], [], [], none⟩
  | .obj fs => do
    let title ← decStr (getFieldJ fs "title".toList)
    let severity ← decStr (getFieldJ fs "severity".toList)
    let reason ← decStr (getFieldJ fs "reason".toList)
    let evidence ← decArr decodeEvidenceLink (getFieldJ fs "evidence".toList)
    some ⟨title, severity, reason, evidence⟩
  | _ => none

/-- Decoder for `BehaviorChange`. -/
def decodeBehaviorChange : Json → Option BehaviorChange
  | .null => some ⟨[], [], none⟩
  | .obj fs => do
    let title ← decStr (getFieldJ fs "title".toList)
    let reason ← decStr (getFieldJ fs "reason".toList)
    let evidence ← decArr decodeEvidenceLink (getFieldJ fs "evidence".toList)
    some ⟨title, reason, evidence⟩
  | _ => none

/-- Decoder for `UpgradeStep`. -/
def decodeUpgradeStep : Json → Option UpgradeStep
  | .null => some ⟨[], [], none⟩
  | .obj fs => do
    let step ← decStr (getFieldJ fs "step".toList)
    let why ← decStr (getFieldJ fs "why".toList)
    let evidence ← decArr decodeEvidenceLink (getFieldJ fs "evidence".toList)
    some ⟨step, why, evidence⟩
  | _ => none

/-- Decoder for `EvidenceItem`. -/
def decodeEvidenceItem : Json → Option EvidenceItem
  | .null => some ⟨[], [], []⟩
  | .obj fs => do
    let label ← decStr (getFieldJ fs "label".toList)
    let url ← decStr (getFieldJ fs "url".toList)
    let kind ← decStr (getFieldJ fs "kind".toList)
    some ⟨label, url, kind⟩
  | _ => none

/-- Decoder for `RepoMeta`. -/
def decodeRepoMeta : Json → Option RepoMeta
  | .null => some ⟨[]⟩
  | .obj fs => do
    let url ← decStr (getFieldJ fs "url".toList)
    some ⟨url⟩
  | _ => none

/-- Decoder for `MetaInfo`. -/
def decodeMeta : Json → Option MetaInfo
  | .null => some ⟨⟨[]⟩, [], [], []⟩
  | .obj fs => do
    let repo ← decodeRepoMeta (getFieldJ fs "repo".toList)
    let fromTag ← decStr (getFieldJ fs "fromTag".toList)
    let toTag ← decStr (getFieldJ fs "toTag".toList)
    let generatedAt ← decStr (getFieldJ fs "generatedAt".toList)
    some ⟨repo, fromTag, toTag, generatedAt⟩
  | _ => none

/-- Decoder for the whole `AnalyzeResponse` document. -/
def decodeAnalyzeResponse : Json → Option AnalyzeResponse
  | .null => some ⟨zeroRisk, ⟨none, none⟩, none, none, none, none, ⟨⟨[]⟩, [], [], []⟩⟩
  | .obj fs => do
    let risk ← decodeRisk (getFieldJ fs "risk".toList)
    let summary ← decodeSummary (getFieldJ fs "summary".toList)
    let breakers ← decArr decodeBreaker (getFieldJ fs "breakers".toList)
    let behaviorChanges ← decArr decodeBehaviorChange (getFieldJ fs "behaviorChanges".toList)
    let upgradeSteps ← decArr decodeUpgradeStep (getFieldJ fs "upgradeSteps".toList)
    let evidence ← decArr decodeEvidenceItem (getFieldJ fs "evidence".toList)
    let meta ← decodeMeta (getFieldJ fs "meta".toList)
    some ⟨risk, summary, breakers, behaviorChanges, upgradeSteps, evidence, meta⟩
  | _ => none

/-! ### Normalization (`validateAndNormalizeResponse` and helpers) -/

/-- Model of `clampScore`. -/
def clampScore (score : Int) : Int :=
  if score < 0 then 0
  else if score > 100 then 100
  else score

/-- Model of `riskLevelForScore`. -/
def riskLevelForScore (score : Int) : Str :=
  if score ≤ 24 then "low".toList
  else if score ≤ 59 then "medium".toList
  else "high".toList

/-- Normalization of one `GroupedSummary` (the `Items` nil-check loop). -/
def normalizeGrouped (g : GroupedSummary) : GroupedSummary :=
  { g with items := some (g.items.getD []) }

/-- Normalization of one `Breaker` (the `Evidence` nil-check loop). -/
def normalizeBreaker (b : Breaker) : Breaker :=
  { b with evidence := some (b.evidence.getD []) }

/-- Normalization of one `BehaviorChange` (the `Evidence` nil-check loop). -/
def normalizeBehaviorChange (b : BehaviorChange) : BehaviorChange :=
  { b with evidence := some (b.evidence.getD []) }

/-- Normalization of one `UpgradeStep` (the `Evidence` nil-check loop). -/
def normalizeUpgradeStep (u : UpgradeStep) : UpgradeStep :=
  { u with evidence := some (u.evidence.getD []) }

/-- Model of the normalization body of `validateAndNormalizeResponse`
(everything after the successful `json.Unmarshal`): clamp the score,
recompute the level from the clamped score (overwriting a disagreeing
level), and replace every nil slice by an explicit empty slice. -/
def normalizeResponse (resp : AnalyzeResponse) : AnalyzeResponse :=
  let score := clampScore resp.risk.score
  let expectedLevel := riskLevelForScore score
  let level := if resp.risk.level ≠ expectedLevel then expectedLevel else resp.risk.level
  { resp with
    risk := { resp.risk with
      score := score
      level := level
      reasons := some (resp.risk.reasons.getD []) }
    summary :=
      { highlights := some (resp.summary.highlights.getD [])
        grouped := some ((resp.summary.grouped.getD []).map normalizeGrouped) }
    breakers := some ((resp.breakers.getD []).map normalizeBreaker)
    behaviorChanges := some ((resp.behaviorChanges.getD []).map normalizeBehaviorChange)
    upgradeSteps := some ((resp.upgradeSteps.getD []).map normalizeUpgradeStep)
    evidence := some (resp.evidence.getD []) }

/-! ### Textual JSON parsing

Model of the `encoding/json` parser for the grammar the model service
can emit: `null`, booleans, numbers, strings with the common escapes
(including `\uXXXX`), arrays and objects.  Recursion is bounded by a
fuel parameter, instantiated with a value large enough for any input
(each nesting level consumes at least one input character). -/

/-- Skip JSON insignificant whitespace. -/
def skipWs (s : Str) : Str := s.dropWhile isSpaceC

/-- Decimal value of a digit list. -/
def digitsToNat (l : Str) : Nat :=
  l.foldl (fun acc c => acc * 10 + (c.toNat - '0'.toNat)) 0

/-- Value of one hexadecimal digit (0 for a non-hex character; the
caller checks hex-ness first). -/
def hexVal (c : Char) : Nat :=
  if '0' ≤ c ∧ c ≤ '9' then c.toNat - '0'.toNat
  else if 'a' ≤ c ∧ c ≤ 'f' then c.toNat - 'a'.toNat + 10
  else if 'A' ≤ c ∧ c ≤ 'F' then c.toNat - 'A'.toNat + 10
  else 0

/-- Hexadecimal digit test. -/
def isHexDigit (c : Char) : Bool :=
  ('0' ≤ c ∧ c ≤ '9') ∨ ('a' ≤ c ∧ c ≤ 'f') ∨ ('A' ≤ c ∧ c ≤ 'F')

/-- Parse a JSON number starting at `s` (first character already known
to be a digit or a minus sign).  Integral literals become `num`;
literals with a fraction or exponent part become `numNonInt`. -/
def parseNum (s : Str) : Option (Json × Str) :=
  let neg : Bool := match s with | '-' :: _ => true | _ => false
  let s1 := match s with | '-' :: r => r | _ => s
  let digits := s1.takeWhile Char.isDigit
  let rest := s1.dropWhile Char.isDigit
  if digits = [] then none
  else
    match rest with
    | c :: _ =>
      if c = '.' ∨ c = 'e' ∨ c = 'E' then
        let rest2 := rest.dropWhile fun ch =>
          ch = '.' ∨ ch = '+' ∨ ch = '-' ∨ ch = 'e' ∨ ch = 'E' ∨ ch.isDigit
        some (.numNonInt, rest2)
      else
        some (.num (if neg then -(digitsToNat digits : Int) else (digitsToNat digits : Int)), rest)
    | [] =>
      some (.num (if neg then -(digitsToNat digits : Int) else (digitsToNat digits : Int)), [])

/-- Parse the body of a JSON string (after the opening quote), up to and
including the closing quote. -/
def parseStringBody : Nat → Str → Option (Str × Str)
  | 0, _ => none
  | _ + 1, [] => none
  | _ + 1, '"' :: rest => some ([], rest)
  | fuel + 1, '\\' :: esc =>
    match esc with
    | 'n' :: rest => (parseStringBody fuel rest).map fun p => ('\n' :: p.1, p.2)
    | 't' :: rest => (parseStringBody fuel rest).map fun p => ('\t' :: p.1, p.2)
    | 'r' :: rest => (parseStringBody fuel rest).map fun p => ('\r' :: p.1, p.2)
    | 'b' :: rest => (parseStringBody fuel rest).map fun p => ('\x08' :: p.1, p.2)
    | 'f' :: rest => (parseStringBody fuel rest).map fun p => ('\x0c' :: p.1, p.2)
    | '/' :: rest => (parseStringBody fuel rest).map fun p => ('/' :: p.1, p.2)
    | '"' :: rest => (parseStringBody fuel rest).map fun p => ('"' :: p.1, p.2)
    | '\\' :: rest => (parseStringBody fuel rest).map fun p => ('\\' :: p.1, p.2)
    | 'u' :: h1 :: h2 :: h3 :: h4 :: rest =>
      if isHexDigit h1 ∧ isHexDigit h2 ∧ isHexDigit h3 ∧ isHexDigit h4 then
        let code := ((hexVal h1 * 16 + hexVal h2) * 16 + hexVal h3) * 16 + hexVal h4
        (parseStringBody fuel rest).map fun p => (Char.ofNat code :: p.1, p.2)
      else none
    | _ => none
  | fuel + 1, c :: rest => (parseStringBody fuel rest).map fun p => (c :: p.1, p.2)

mutual

/-- Parse one JSON value. -/
def parseVal : Nat → Str → Option (Json × Str)
  | 0, _ => none
  | fuel + 1, s =>
    match skipWs s with
    | [] => none
    | 'n' :: 'u' :: 'l' :: 'l' :: rest => some (.null, rest)
    | 't' :: 'r' :: 'u' :: 'e' :: rest => some (.bool true, rest)
    | 'f' :: 'a' :: 'l' :: 's' :: 'e' :: rest => some (.bool false, rest)
    | '"' :: rest => (parseStringBody (rest.length + 1) rest).map fun p => (.str p.1, p.2)
    | '[' :: rest =>
      (match skipWs rest with
       | ']' :: rest2 => some (.arr [], rest2)
       | rest2 => (parseElems fuel rest2).map fun p => (.arr p.1, p.2))
    | '{' :: rest =>
      (match skipWs rest with
       | '}' :: rest2 => some (.obj [], rest2)
       | rest2 => (parseFields fuel rest2).map fun p => (.obj p.1, p.2))
    | c :: rest =>
      if c = '-' ∨ c.isDigit then parseNum (c :: rest) else none

/-- Parse the non-empty element list of a JSON array, up to and
including the closing bracket. -/
def parseElems : Nat → Str → Option (List Json × Str)
  | 0, _ => none
  | fuel + 1, s => do
    let (v, rest) ← parseVal fuel s
    match skipWs rest with
    | ',' :: rest2 => (parseElems fuel rest2).map fun p => (v :: p.1, p.2)
    | ']' :: rest2 => some ([v], rest2)
    | _ => none

/-- Parse the non-empty field list of a JSON object, up to and
including the closing brace. -/
def parseFields : Nat → Str → Option (List (Str × Json) × Str)
  | 0, _ => none
  | fuel + 1, s =>
    match skipWs s with
    | '"' :: rest => do
      let (key, rest1) ← parseStringBody (rest.length + 1) rest
      match skipWs rest1 with
      | ':' :: rest2 => do
        let (v, rest3) ← parseVal fuel rest2
        match skipWs rest3 with
        | ',' :: rest4 => (parseFields fuel rest4).map fun p => ((key, v) :: p.1, p.2)
        | '}' :: rest4 => some ([(key, v)], rest4)
        | _ => none
      | _ => none
    | _ => none

end

/-- Parse a whole JSON document: one value with nothing but whitespace
after it, as `json.Unmarshal` requires. -/
def parseJsonText (s : Str) : Option Json :=
  match parseVal (2 * s.length + 2) s with
  | some (j, rest) => if skipWs rest = [] then some j else none
  | none => none

/-- Error outcomes of `validateAndNormalizeResponse`; both constructors
belong to the spec's `ModelResponseInvalid` kind (the caller answers
"model returned invalid JSON" for either). -/
inductive NormalizeError where
  | emptyModelResponse
  | jsonUnmarshalError
deriving DecidableEq, Repr

/-- Model of `validateAndNormalizeResponse`: trim the raw bytes, fail on
empty input, fail if they do not parse as a JSON document decodable into
the response shape, otherwise normalize. -/
def validateAndNormalizeResponse (raw : Str) : Except NormalizeError AnalyzeResponse :=
  let raw := trimSpaceC raw
  if raw = [] then .error .emptyModelResponse
  else
    match parseJsonText raw with
    | none => .error .jsonUnmarshalError
    | some j =>
      match decodeAnalyzeResponse j with
      | none => .error .jsonUnmarshalError
      | some resp => .ok (normalizeResponse resp)

/-! ### Serializing an `AnalyzeResponse` back to JSON

Model of `json.Marshal` on `AnalyzeResponse` (no `omitempty` on any of
its fields): a nil slice marshals to `null`, a non-nil slice to an
array.  Together with `decodeAnalyzeResponse` this models a marshal /
unmarshal round trip at the JSON-value level. -/

/-- Marshal a nil-able slice. -/
def optArrJ (f : α → Json) : Option (List α) → Json
  | none => .null
  | some xs => .arr (xs.map f)

/-- Marshal `RiskInfo`. -/
def riskToJson (r : RiskInfo) : Json :=
  .obj [("level".toList, .str r.level), ("score".toList, .num r.score),
        ("confidence".toList, .str r.confidence),
        ("reasons".toList, optArrJ Json.str r.reasons)]

/-- Marshal `GroupedSummary`. -/
def groupedToJson (g : GroupedSummary) : Json :=
  .obj [("title".toList, .str g.title), ("items".toList, optArrJ Json.str g.items)]

/-- Marshal `SummaryInfo`. -/
def summaryToJson (s : SummaryInfo) : Json :=
  .obj [("highlights".toList, optArrJ Json.str s.highlights),
        ("grouped".toList, optArrJ groupedToJson s.grouped)]

/-- Marshal `EvidenceLink`. -/
def evidenceLinkToJson (e : EvidenceLink) : Json :=
  .obj [("label".toList, .str e.label), ("url".toList, .str e.url)]

/-- Marshal `Breaker`. -/
def breakerToJson (b : Breaker) : Json :=
  .obj [("title".toList, .str b.title), ("severity".toList, .str b.severity),
        ("reason".toList, .str b.reason),
        ("evidence".toList, optArrJ evidenceLinkToJson b.evidence)]

/-- Marshal `BehaviorChange`. -/
def behaviorChangeToJson (b : BehaviorChange) : Json :=
  .obj [("title".toList, .str b.title), ("reason".toList, .str b.reason),
        ("evidence".toList, optArrJ evidenceLinkToJson b.evidence)]

/-- Marshal `UpgradeStep`. -/
def upgradeStepToJson (u : UpgradeStep) : Json :=
  .obj [("step".toList, .str u.step), ("why".toList, .str u.why),
        ("evidence".toList, optArrJ evidenceLinkToJson u.evidence)]

/-- Marshal `EvidenceItem`. -/
def evidenceItemToJson (e : EvidenceItem) : Json :=
  .obj [("label".toList, .str e.label), ("url".toList, .str e.url),
        ("kind".toList, .str e.kind)]

/-- Marshal `MetaInfo`. -/
def metaToJson (m : MetaInfo) : Json :=
  .obj [("repo".toList, .obj [("url".toList, .str m.repo.url)]),
        ("fromTag".toList, .str m.fromTag), ("toTag".toList, .str m.toTag),
        ("generatedAt".toList, .str m.generatedAt)]

/-- Marshal a whole `AnalyzeResponse`. -/
def responseToJson (r : AnalyzeResponse) : Json :=
  .obj [("risk".toList, riskToJson r.risk),
        ("summary".toList, summaryToJson r.summary),
        ("breakers".toList, optArrJ breakerToJson r.breakers),
        ("behaviorChanges".toList, optArrJ behaviorChangeToJson r.behaviorChanges),
        ("upgradeSteps".toList, optArrJ upgradeStepToJson r.upgradeSteps),
        ("evidence".toList, optArrJ evidenceItemToJson r.evidence),
        ("meta".toList, metaToJson r.meta)]

/-- The validate-and-normalize pipeline applied to an already-parsed
JSON document (the serialization and reparsing of a response are
modelled at the JSON-value level; the textual layer of `encoding/json`
is stdlib code, not code of this repository). -/
def validateAndNormalizeJson (j : Json) : Except NormalizeError AnalyzeResponse :=
  match decodeAnalyzeResponse j with
  | none => .error .jsonUnmarshalError
  | some resp => .ok (normalizeResponse resp)

/-! ### Meta overwriting in `AnalyzeHandler` -/

/-- Model of the four meta assignments `AnalyzeHandler` performs on a
successfully normalized response (`resp.Meta.Repo.Url = req.RepoUrl`
and so on); the server timestamp is passed in as `now`. -/
def setResponseMeta (repoUrl fromTag toTag now : Str) (resp : AnalyzeResponse) : AnalyzeResponse :=
  { resp with meta := ⟨⟨repoUrl⟩, fromTag, toTag, now⟩ }

/-- Model of the tail of `AnalyzeHandler`'s success path: normalize the
model payload, then overwrite the meta fields from the request. -/
def analyzeRespond (repoUrl fromTag toTag now : Str) (modelPayload : Str) :
    Except NormalizeError AnalyzeResponse :=
  match validateAndNormalizeResponse modelPayload with
  | .error e => .error e
  | .ok resp => .ok (setResponseMeta repoUrl fromTag toTag now resp)

/-! ### Release-window scan (`fetchReleaseNotes`, `pkg/github_compare.go`)

A provider release entry; a nil `*RepositoryRelease` in a listing page
is modelled as `none`.  A page fetch either fails with a provider error
or yields a page of entries; the provider's paginated listing is the
list of successive page results. -/

/-- Model of `releaseNote` (`pkg/types.go`). -/
structure releaseNote where
  tag : Str
  body : Str
deriving DecidableEq, Repr

/-- A release entry as returned by the provider (`GetTagName` and
`GetBody` return `""` for nil fields, so both are plain strings). -/
structure Release where
  tagName : Str
  body : Str
deriving DecidableEq, Repr

/-- The scan state of `fetchReleaseNotes`: the accumulated notes and
the `collecting` / `endTag` variables. -/
structure ScanSt where
  notes : List releaseNote
  collecting : Bool
  endTag : Str
deriving DecidableEq, Repr

/-- The body truncation applied to an appended release (`body[:5000]`,
modelled at character granularity). -/
def truncBody (body : Str) : Str :=
  if body.length > 5000 then body.take 5000 else body

/-- Model of `clampReleaseNotes`. -/
def clampReleaseNotes (notes : List releaseNote) (maxReleases : Int) : List releaseNote :=
  if maxReleases ≤ 0 then notes
  else if (notes.length : Int) > maxReleases then notes.take maxReleases.toNat
  else notes

/-- The collecting branch of the scan loop: append the (truncated) note,
then return early if the end boundary was just appended or the count
reached `maxReleases`. -/
def scanStep (maxReleases : Int) (st : ScanSt) (tag body : Str) :
    ScanSt ⊕ List releaseNote :=
  let notes := st.notes ++ [⟨tag, truncBody body⟩]
  if tag = st.endTag then .inr (clampReleaseNotes notes maxReleases)
  else if (notes.length : Int) ≥ maxReleases then .inr (clampReleaseNotes notes maxReleases)
  else .inl { st with notes := notes }

/-- One iteration of the scan's inner loop over a page entry: skip nil
entries and empty (trimmed) tags; while seeking, start collecting at a
`fromTag`/`toTag` boundary and derive the other tag as the end
boundary; while collecting, run `scanStep`. -/
def scanEntry (fromTag toTag : Str) (maxReleases : Int) (st : ScanSt)
    (rel : Option Release) : ScanSt ⊕ List releaseNote :=
  match rel with
  | none => .inl st
  | some r =>
    let tag := trimSpaceC r.tagName
    if tag = [] then .inl st
    else if st.collecting then scanStep maxReleases st tag r.body
    else if tag = fromTag ∨ tag = toTag then
      scanStep maxReleases
        { st with collecting := true, endTag := if tag = fromTag then toTag else fromTag }
        tag r.body
    else .inl st

/-- The scan's inner loop over the entries of one page, stopping early
when an iteration returns. -/
def scanEntries (fromTag toTag : Str) (maxReleases : Int) :
    List (Option Release) → ScanSt → ScanSt ⊕ List releaseNote
  | [], st => .inl st
  | e :: rest, st =>
    match scanEntry fromTag toTag maxReleases st e with
    | .inl st2 => scanEntries fromTag toTag maxReleases rest st2
    | .inr r => .inr r

/-- The scan's outer page-walk: a failing page fetch aborts the whole
scan with the mapped error; otherwise the page's entries are scanned
and the state carried into the next page; exhausting all pages returns
the clamped accumulated notes. -/
def fetchReleaseNotesPages (fromTag toTag : Str) (maxReleases : Int) :
    List (Except AppError (List (Option Release))) → ScanSt →
    Except AppError (List releaseNote)
  | [], st => .ok (clampReleaseNotes st.notes maxReleases)
  | page :: rest, st =>
    match page with
    | .error e => .error (mapGitHubError e)
    | .ok entries =>
      match scanEntries fromTag toTag maxReleases entries st with
      | .inr r => .ok r
      | .inl st2 => fetchReleaseNotesPages fromTag toTag maxReleases rest st2

/-- Model of `fetchReleaseNotes`, starting from the initial state
`notes = [], collecting = false, endTag = ""`. -/
def fetchReleaseNotes (pages : List (Except AppError (List (Option Release))))
    (fromTag toTag : Str) (maxReleases : Int) : Except AppError (List releaseNote) :=
  fetchReleaseNotesPages fromTag toTag maxReleases pages ⟨[], false, []⟩

/-! #### The same scan with the final `clampReleaseNotes` calls replaced
by the identity, used to settle whether the fallback clamp ever removes
an entry (spec §9's open question). -/

/-- `scanStep` without the fallback clamp on its early returns. -/
def scanStepU (maxReleases : Int) (st : ScanSt) (tag body : Str) :
    ScanSt ⊕ List releaseNote :=
  let notes := st.notes ++ [⟨tag, truncBody body⟩]
  if tag = st.endTag then .inr notes
  else if (notes.length : Int) ≥ maxReleases then .inr notes
  else .inl { st with notes := notes }

/-- `scanEntry` without the fallback clamp. -/
def scanEntryU (fromTag toTag : Str) (maxReleases : Int) (st : ScanSt)
    (rel : Option Release) : ScanSt ⊕ List releaseNote :=
  match rel with
  | none => .inl st
  | some r =>
    let tag := trimSpaceC r.tagName
    if tag = [] then .inl st
    else if st.collecting then scanStepU maxReleases st tag r.body
    else if tag = fromTag ∨ tag = toTag then
      scanStepU maxReleases
        { st with collecting := true, endTag := if tag = fromTag then toTag else fromTag }
        tag r.body
    else .inl st

/-- `scanEntries` without the fallback clamp. -/
def scanEntriesU (fromTag toTag : Str) (maxReleases : Int) :
    List (Option Release) → ScanSt → ScanSt ⊕ List releaseNote
  | [], st => .inl st
  | e :: rest, st =>
    match scanEntryU fromTag toTag maxReleases st e with
    | .inl st2 => scanEntriesU fromTag toTag maxReleases rest st2
    | .inr r => .inr r

/-- The page-walk without the fallback clamp. -/
def fetchReleaseNotesPagesU (fromTag toTag : Str) (maxReleases : Int) :
    List (Except AppError (List (Option Release))) → ScanSt →
    Except AppError (List releaseNote)
  | [], st => .ok st.notes
  | page :: rest, st =>
    match page with
    | .error e => .error (mapGitHubError e)
    | .ok entries =>
      match scanEntriesU fromTag toTag maxReleases entries st with
      | .inr r => .ok r
      | .inl st2 => fetchReleaseNotesPagesU fromTag toTag maxReleases rest st2

/-- `fetchReleaseNotes` without the fallback clamp. -/
def fetchReleaseNotesU (pages : List (Except AppError (List (Option Release))))
    (fromTag toTag : Str) (maxReleases : Int) : Except AppError (List releaseNote) :=
  fetchReleaseNotesPagesU fromTag toTag maxReleases pages ⟨[], false, []⟩

/-! #### Specification-level description of the window scan -/

/-- The note a release entry would contribute (trimmed tag, truncated
body), skipping nil entries and entries with an empty trimmed tag; the
page structure is flattened since the scan consumes entries in provider
order across page boundaries. -/
def cleanEntries (entries : List (Option Release)) : List releaseNote :=
  entries.filterMap fun e =>
    match e with
    | none => none
    | some r =>
      let tag := trimSpaceC r.tagName
      if tag = [] then none else some ⟨tag, truncBody r.body⟩

/-- Boundary test of the window scan. -/
def isBoundary (fromTag toTag : Str) (n : releaseNote) : Bool :=
  n.tag == fromTag || n.tag == toTag

/-- Modelled from the spec: once collection has begun, every entry is
appended in encountered order until the end boundary is matched or the
accumulated count reaches the capacity, whichever comes first. -/
def collectUntil (endTag : Str) (cap : Int) : List releaseNote → List releaseNote
  | [] => []
  | n :: rest =>
    n :: (if n.tag = endTag ∨ cap ≤ 1 then [] else collectUntil endTag (cap - 1) rest)

/-- Modelled from the spec (§4.4 step 3): entries are ignored until the
first one whose tag equals `fromTag` or `toTag`; the other tag becomes
the end boundary; from there entries are collected in encountered order
until the end boundary is matched or `maxReleases` notes have been
collected. -/
def releaseWindowSpec (fromTag toTag : Str) (maxReleases : Int)
    (entries : List releaseNote) : List releaseNote :=
  match entries.dropWhile (fun n => !isBoundary fromTag toTag n) with
  | [] => []
  | b :: rest =>
    collectUntil (if b.tag = fromTag then toTag else fromTag) maxReleases (b :: rest)

/-! ### Comparison aggregation (`fetchComparisonData`) -/

/-- The `Commit` payload of a provider commit (`c.Commit`); `none`
models a nil pointer. -/
structure CommitInner where
  message : Str
deriving DecidableEq, Repr

/-- A provider commit of a compare result (`GetSHA` returns `""` for a
nil SHA, so the SHA is a plain string). -/
structure RepoCommit where
  sha : Str
  commit : Option CommitInner
deriving DecidableEq, Repr

/-- A changed-file entry of a compare result. -/
structure CommitFile where
  filename : Str
deriving DecidableEq, Repr

/-- A provider compare result: ordered commits and changed files, each
possibly a nil pointer. -/
structure CompareResult where
  commits : List (Option RepoCommit)
  files : List (Option CommitFile)
deriving DecidableEq, Repr

/-- First line of a commit message (`strings.SplitN(message, "\n", 2)[0]`). -/
def firstLine (s : Str) : Str := s.takeWhile (· ≠ '\n')

/-- The commit-title loop of `fetchComparisonData`: skip nil commits and
empty (trimmed) messages, take the first line, and in `deep` mode
prepend the first seven characters of a non-empty SHA followed by a
colon and a space. -/
def buildCommitTitles (mode : Str) (commits : List (Option RepoCommit)) : List Str :=
  commits.filterMap fun oc =>
    match oc with
    | none => none
    | some c =>
      match c.commit with
      | none => none
      | some inner =>
        let message := trimSpaceC inner.message
        if message = [] then none
        else
          let title := firstLine message
          if mode = "deep".toList then
            let sha := if c.sha.length > 7 then c.sha.take 7 else c.sha
            if sha = [] then some title else some (sha ++ ": ".toList ++ title)
          else some title

/-- The changed-file loop of `fetchComparisonData`: skip nil entries and
empty filenames, keep the first occurrence of each path (the `seen` map
is modelled as the list of already-kept names). -/
def dedupFiles : List (Option CommitFile) → List Str → List Str
  | [], _ => []
  | f :: rest, seen =>
    match f with
    | none => dedupFiles rest seen
    | some file =>
      if file.filename = [] then dedupFiles rest seen
      else if file.filename ∈ seen then dedupFiles rest seen
      else file.filename :: dedupFiles rest (file.filename :: seen)

/-- Changed files collected by `fetchComparisonData`: the deduplicated
paths in `deep` mode, the nil slice in `fast` mode.  A Go nil slice and
an empty slice are indistinguishable here (the loop only ever appends),
so both are modelled as `[]`. -/
def buildChangedFiles (mode : Str) (files : List (Option CommitFile)) : List Str :=
  if mode = "deep".toList then dedupFiles files [] else []

/-- Model of `comparisonData` (`pkg/types.go`). -/
structure comparisonData where
  releaseNotes : List releaseNote
  commitTitles : List Str
  changedFiles : List Str
deriving DecidableEq, Repr

/-- Model of `fetchComparisonData`: the compare call's outcome is passed
in (success value or provider error, which is mapped through
`mapGitHubError` exactly as at the call site); titles and changed files
are built from the compare result and the release-window scan runs over
the release listing pages; any failure aborts the whole aggregation. -/
def fetchComparisonData (compareRes : Except AppError CompareResult)
    (releasePages : List (Except AppError (List (Option Release))))
    (fromTag toTag : Str) (maxReleases : Int) (mode : Str) :
    Except AppError comparisonData :=
  match compareRes with
  | .error e => .error (mapGitHubError e)
  | .ok compare =>
    let commitTitles := buildCommitTitles mode compare.commits
    let changedFiles := buildChangedFiles mode compare.files
    match fetchReleaseNotes releasePages fromTag toTag maxReleases with
    | .error e => .error e
    | .ok notes => .ok ⟨notes, commitTitles, changedFiles⟩

/-- Model of `analysisInputBundle` (`pkg/types.go`); the field names
`fromT`/`toT` stand for the Go fields `From`/`To` (serialized as
`from`/`to`), whose names are reserved words in Lean. -/
structure analysisInputBundle where
  repo : Str
  fromT : Str
  toT : Str
  releaseNotes : List releaseNote
  commitTitles : List Str
  changedFiles : List Str
deriving DecidableEq, Repr

/-- The bundle `AnalyzeHandler` builds from a successful aggregation. -/
def mkBundle (repoUrl fromTag toTag : Str) (d : comparisonData) : analysisInputBundle :=
  ⟨repoUrl, fromTag, toTag, d.releaseNotes, d.commitTitles, d.changedFiles⟩

/-- Marshal a `releaseNote`. -/
def noteToJson (n : releaseNote) : Json :=
  .obj [("tag".toList, .str n.tag), ("body".toList, .str n.body)]

/-- Model of `json.Marshal` on `analysisInputBundle`: every field is
emitted except `changedFiles`, which carries the `omitempty` option and
is therefore omitted whenever the slice has length zero (Go's
`omitempty` treats a nil slice and an empty slice alike). -/
def bundleToJson (b : analysisInputBundle) : Json :=
  .obj ([("repo".toList, .str b.repo), ("from".toList, .str b.fromT),
         ("to".toList, .str b.toT),
         ("releaseNotes".toList, .arr (b.releaseNotes.map noteToJson)),
         ("commitTitles".toList, .arr (b.commitTitles.map Json.str))] ++
        (if b.changedFiles.isEmpty then []
         else [("changedFiles".toList, .arr (b.changedFiles.map Json.str))]))

/-- Whether a serialized JSON object carries a field named `key`. -/
def hasKey (j : Json) (key : Str) : Bool :=
  match j with
  | .obj fs => fs.any fun kv => kv.1 == key
  | _ => false

/-! ### Tag listing (`GetRepoTags`, `pkg/github.go`) -/

/-- A tag entry of a listing page: `none` models a nil `*RepositoryTag`,
`some none` a tag whose `Name` is nil, `some (some s)` a named tag. -/
abbrev TagEntry := Option (Option Str)

/-- The name-collection loop of `GetRepoTags`: keep the names of the
entries that are non-nil and carry a non-nil name, in page order. -/
def collectTagNames (entries : List TagEntry) : List Str :=
  entries.filterMap fun t => t.bind id

/-- The page-walk of `GetRepoTags`: the first failing page fetch aborts
the whole listing with the mapped error (later pages are never
fetched); otherwise the pages' names are concatenated in order. -/
def getRepoTagsPages : List (Except AppError (List TagEntry)) → Except AppError (List Str)
  | [] => .ok []
  | page :: rest =>
    match page with
    | .error e => .error (mapGitHubError e)
    | .ok entries =>
      match getRepoTagsPages rest with
      | .error e2 => .error e2
      | .ok more => .ok (collectTagNames entries ++ more)

/-- Model of `GetRepoTags`: resolve the repository URL, then page-walk
the tag listing. -/
def GetRepoTags (repoURL : Str) (pages : List (Except AppError (List TagEntry))) :
    Except AppError (List Str) :=
  match ParseGitHubRepoURL repoURL with
  | .error e => .error e
  | .ok _ => getRepoTagsPages pages

/-! ### Auxiliary forms of the scan used in proofs -/

/-- `scanStep` acting on an already-cleaned note (trimmed tag, truncated
body); `scanStep m st tag body = scanStepN m st ⟨tag, truncBody body⟩`
definitionally. -/
def scanStepN (m : Int) (st : ScanSt) (n : releaseNote) : ScanSt ⊕ List releaseNote :=
  let notes := st.notes ++ [n]
  if n.tag = st.endTag then .inr (clampReleaseNotes notes m)
  else if (notes.length : Int) ≥ m then .inr (clampReleaseNotes notes m)
  else .inl { st with notes := notes }

/-- One scan iteration on a cleaned note. -/
def scanNoteStep (fromTag toTag : Str) (m : Int) (st : ScanSt) (n : releaseNote) :
    ScanSt ⊕ List releaseNote :=
  if st.collecting then scanStepN m st n
  else if n.tag = fromTag ∨ n.tag = toTag then
    scanStepN m
      { st with collecting := true, endTag := if n.tag = fromTag then toTag else fromTag } n
  else .inl st

/-- The scan loop acting on the cleaned entry sequence. -/
def scanNotes (fromTag toTag : Str) (m : Int) : List releaseNote → ScanSt → ScanSt ⊕ List releaseNote
  | [], st => .inl st
  | n :: rest, st =>
    match scanNoteStep fromTag toTag m st n with
    | .inl st2 => scanNotes fromTag toTag m rest st2
    | .inr r => .inr r

/-- Completion of a scan that ran out of pages: a state that never
returned early is finished by clamping its accumulated notes, exactly
as the fall-through return of `fetchReleaseNotes` does. -/
def scanOutcome (m : Int) : ScanSt ⊕ List releaseNote → List releaseNote
  | .inl st => clampReleaseNotes st.notes m
  | .inr r => r

/-! ### Specification-level descriptions used for claim C4 -/

/-- The commits of a compare result that contribute a title: non-nil,
with a non-nil `Commit` payload and a non-empty trimmed message; each
contributes its SHA and its trimmed message. -/
def validCommits (commits : List (Option RepoCommit)) : List (Str × Str) :=
  commits.filterMap fun oc =>
    match oc with
    | none => none
    | some c =>
      match c.commit with
      | none => none
      | some inner =>
        let message := trimSpaceC inner.message
        if message = [] then none else some (c.sha, message)

/-- The changed-file entries of a compare result that qualify for
collection: non-nil with a non-empty filename, in provider order and
with duplicates retained. -/
def validFileNames (files : List (Option CommitFile)) : List Str :=
  files.filterMap fun f =>
    match f with
    | none => none
    | some file => if file.filename = [] then none else some file.filename

/-! ### Concrete values used by witnesses -/

/-- A model reply with a score of 85 and a (disagreeing) level `low`. -/
def exampleReply : Str :=
  "\x7b\"risk\":\x7b\"score\":85,\"level\":\"low\"\x7d\x7d".toList

/-- The normalized document produced from `exampleReply`. -/
def exampleNormalized : AnalyzeResponse :=
  ⟨⟨"high".toList, 85, [], some []⟩, ⟨some [], some []⟩, some [], some [], some [], some [],
   ⟨⟨[]⟩, [], [], []⟩⟩

/-- A compare result with one commit and no changed files. -/
def exampleCompareNoFiles : CompareResult :=
  ⟨[some ⟨"abc1234def".toList, some ⟨"feat: add API".toList⟩⟩], []⟩

/-- A compare result with one commit and a duplicated changed file. -/
def exampleCompare : CompareResult :=
  ⟨[some ⟨"abc1234def".toList, some ⟨"feat: add API\ndetails".toList⟩⟩],
   [some ⟨"pkg/api.go".toList⟩, some ⟨"README.md".toList⟩, some ⟨"pkg/api.go".toList⟩]⟩

/-- The deep-mode aggregation of `exampleCompare` over an empty release
listing. -/
def exampleDeepData : comparisonData :=
  ⟨[], ["abc1234: feat: add API".toList], ["pkg/api.go".toList, "README.md".toList]⟩

/-- The fast-mode aggregation of `exampleCompare` over an empty release
listing. -/
def exampleFastData : comparisonData :=
  ⟨[], ["feat: add API".toList], []⟩

/-! ## Theorems -/

/-- Every successful run of `validateAndNormalizeResponse` produces the
normalization of some decoded document. -/
theorem validate_ok_shape (raw : Str) (resp : AnalyzeResponse)
    (h : validateAndNormalizeResponse raw = .ok resp) :
    ∃ r, resp = normalizeResponse r := by
  simp only [validateAndNormalizeResponse] at h
  split at h
  · cases h
  · split at h
    · cases h
    · split at h
      · cases h
      · cases h
        exact ⟨_, rfl⟩

/-- The score clamp stays within the documented bounds. -/
theorem clampScore_mem (s : Int) : 0 ≤ clampScore s ∧ clampScore s ≤ 100 := by
  unfold clampScore
  split
  · omega
  · split
    · omega
    · omega

/-- After normalization, the level is the one recomputed from the score. -/
theorem normalizeResponse_level (r : AnalyzeResponse) :
    (normalizeResponse r).risk.level = riskLevelForScore ((normalizeResponse r).risk.score) := by
  show (if r.risk.level ≠ riskLevelForScore (clampScore r.risk.score) then
          riskLevelForScore (clampScore r.risk.score) else r.risk.level) =
       riskLevelForScore (clampScore r.risk.score)
  split
  · rfl
  · next h => exact not_not.mp h

/-- C1: every document accepted by `validateAndNormalizeResponse` has a
clamped score in `[0, 100]`, a level determined by the fixed buckets
applied to that score (`≤ 24` low, `25..59` medium, `≥ 60` high,
whatever level the model supplied), and every array-typed field present
as an explicit (possibly empty) sequence rather than a nil slice. -/
theorem spec_C1 (raw : Str) (resp : AnalyzeResponse)
    (h : validateAndNormalizeResponse raw = .ok resp) :
    (0 ≤ resp.risk.score ∧ resp.risk.score ≤ 100) ∧
    (resp.risk.score ≤ 24 → resp.risk.level = "low".toList) ∧
    (25 ≤ resp.risk.score → resp.risk.score ≤ 59 → resp.risk.level = "medium".toList) ∧
    (60 ≤ resp.risk.score → resp.risk.level = "high".toList) ∧
    resp.risk.reasons.isSome ∧
    resp.summary.highlights.isSome ∧
    resp.summary.grouped.isSome ∧
    (∀ g ∈ resp.summary.grouped.getD [], g.items.isSome) ∧
    resp.breakers.isSome ∧
    (∀ b ∈ resp.breakers.getD [], b.evidence.isSome) ∧
    resp.behaviorChanges.isSome ∧
    (∀ b ∈ resp.behaviorChanges.getD [], b.evidence.isSome) ∧
    resp.upgradeSteps.isSome ∧
    (∀ u ∈ resp.upgradeSteps.getD [], u.evidence.isSome) ∧
    resp.evidence.isSome := by
  obtain ⟨r, rfl⟩ := validate_ok_shape raw resp h
  have hscore : (normalizeResponse r).risk.score = clampScore r.risk.score := rfl
  have hlevel := normalizeResponse_level r
  refine ⟨?_, ?_, ?_, ?_, ?_, ?_, ?_, ?_, ?_, ?_, ?_, ?_, ?_, ?_, ?_⟩
  · rw [hscore]; exact clampScore_mem r.risk.score
  · intro hle
    rw [hlevel]
    unfold riskLevelForScore
    rw [if_pos hle]
  · intro h25 h59
    rw [hlevel]
    unfold riskLevelForScore
    rw [if_neg (by omega), if_pos h59]
  · intro h60
    rw [hlevel]
    unfold riskLevelForScore
    rw [if_neg (by omega), if_neg (by omega)]
  · rfl
  · rfl
  · rfl
  · intro g hg
    show g.items.isSome
    have : g ∈ (r.summary.grouped.getD []).map normalizeGrouped := hg
    obtain ⟨g0, _, rfl⟩ := List.mem_map.mp this
    rfl
  · rfl
  · intro b hb
    obtain ⟨b0, _, rfl⟩ := List.mem_map.mp hb
    rfl
  · rfl
  · intro b hb
    obtain ⟨b0, _, rfl⟩ := List.mem_map.mp hb
    rfl
  · rfl
  · intro u hu
    obtain ⟨u0, _, rfl⟩ := List.mem_map.mp hu
    rfl
  · rfl

/-- Witness for C1 at the concrete reply `exampleReply`. -/
theorem spec_C1_witness :
    validateAndNormalizeResponse exampleReply = .ok exampleNormalized ∧
    ((0 ≤ exampleNormalized.risk.score ∧ exampleNormalized.risk.score ≤ 100) ∧
     (exampleNormalized.risk.score ≤ 24 → exampleNormalized.risk.level = "low".toList) ∧
     (25 ≤ exampleNormalized.risk.score → exampleNormalized.risk.score ≤ 59 →
       exampleNormalized.risk.level = "medium".toList) ∧
     (60 ≤ exampleNormalized.risk.score → exampleNormalized.risk.level = "high".toList) ∧
     exampleNormalized.risk.reasons.isSome ∧
     exampleNormalized.summary.highlights.isSome ∧
     exampleNormalized.summary.grouped.isSome ∧
     (∀ g ∈ exampleNormalized.summary.grouped.getD [], g.items.isSome) ∧
     exampleNormalized.breakers.isSome ∧
     (∀ b ∈ exampleNormalized.breakers.getD [], b.evidence.isSome) ∧
     exampleNormalized.behaviorChanges.isSome ∧
     (∀ b ∈ exampleNormalized.behaviorChanges.getD [], b.evidence.isSome) ∧
     exampleNormalized.upgradeSteps.isSome ∧
     (∀ u ∈ exampleNormalized.upgradeSteps.getD [], u.evidence.isSome) ∧
     exampleNormalized.evidence.isSome) :=
  ⟨by rfl, spec_C1 exampleReply exampleNormalized (by rfl)⟩

/-- C8: a reply whose trimmed bytes are empty, or do not parse as JSON,
or parse to a document the response shape rejects, makes
`validateAndNormalizeResponse` return an error result (the
`ModelResponseInvalid` outcome); no normalized response is produced and
the total function cannot crash. -/
theorem spec_C8 (raw : Str)
    (h : trimSpaceC raw = [] ∨ parseJsonText (trimSpaceC raw) = none ∨
         ∀ j, parseJsonText (trimSpaceC raw) = some j → decodeAnalyzeResponse j = none) :
    ∃ e, validateAndNormalizeResponse raw = .error e := by
  by_cases he : trimSpaceC raw = []
  · exact ⟨.emptyModelResponse, by simp only [validateAndNormalizeResponse, if_pos he]⟩
  · rcases h with h | h | h
    · exact absurd h he
    · exact ⟨.jsonUnmarshalError, by simp only [validateAndNormalizeResponse, if_neg he, h]⟩
    · cases hp : parseJsonText (trimSpaceC raw) with
      | none =>
        exact ⟨.jsonUnmarshalError, by simp only [validateAndNormalizeResponse, if_neg he, hp]⟩
      | some j =>
        exact ⟨.jsonUnmarshalError, by
          simp only [validateAndNormalizeResponse, if_neg he, hp, h j hp]⟩

/-- Witness for C8 at the concrete non-JSON reply `"not json"`. -/
theorem spec_C8_witness :
    parseJsonText (trimSpaceC "not json".toList) = none ∧
    ∃ e, validateAndNormalizeResponse "not json".toList = .error e :=
  ⟨by rfl, spec_C8 "not json".toList (Or.inr (Or.inl (by rfl)))⟩

/-- C10: for every successful analyze response the meta block equals the
request's repo URL and tags plus the server timestamp, whatever meta the
model reply carried; two replies normalized under the same request and
timestamp produce identical meta blocks. -/
theorem spec_C10 (repoUrl fromTag toTag now raw1 raw2 : Str) (r1 r2 : AnalyzeResponse)
    (h1 : analyzeRespond repoUrl fromTag toTag now raw1 = .ok r1)
    (h2 : analyzeRespond repoUrl fromTag toTag now raw2 = .ok r2) :
    r1.meta = ⟨⟨repoUrl⟩, fromTag, toTag, now⟩ ∧ r1.meta = r2.meta := by
  have key : ∀ raw r, analyzeRespond repoUrl fromTag toTag now raw = .ok r →
      r.meta = ⟨⟨repoUrl⟩, fromTag, toTag, now⟩ := by
    intro raw r h
    unfold analyzeRespond at h
    split at h
    · cases h
    · cases h
      rfl
  exact ⟨key _ _ h1, (key _ _ h1).trans (key _ _ h2).symm⟩

/-- Witness for C10: two concrete replies that differ (in particular in
the meta they carry) end up with the same server-determined meta. -/
theorem spec_C10_witness :
    (⟨⟨"high".toList, 85, [], some []⟩, ⟨some [], some []⟩, some [], some [], some [], some [],
      ⟨⟨"u".toList⟩, "f".toList, "t".toList, "n".toList⟩⟩ : AnalyzeResponse).meta =
      ⟨⟨"u".toList⟩, "f".toList, "t".toList, "n".toList⟩ ∧
    (⟨⟨"high".toList, 85, [], some []⟩, ⟨some [], some []⟩, some [], some [], some [], some [],
      ⟨⟨"u".toList⟩, "f".toList, "t".toList, "n".toList⟩⟩ : AnalyzeResponse).meta =
    (⟨⟨"low".toList, 0, [], some []⟩, ⟨some [], some []⟩, some [], some [], some [], some [],
      ⟨⟨"u".toList⟩, "f".toList, "t".toList, "n".toList⟩⟩ : AnalyzeResponse).meta :=
  spec_C10 "u".toList "f".toList "t".toList "n".toList exampleReply "\x7b\x7d".toList
    _ _ (by rfl) (by rfl)

/-! ### Round-trip and idempotence lemmas for C9 -/

/-- Elementwise decode inverts elementwise encode. -/
theorem decList_rt {α : Type} (f : Json → Option α) (g : α → Json)
    (h : ∀ a, f (g a) = some a) : ∀ xs : List α, decList f (xs.map g) = some xs := by
  intro xs
  induction xs with
  | nil => rfl
  | cons a tl ih => simp [List.map, decList, h a, ih]

/-- Slice-field decode inverts slice-field encode. -/
theorem decArr_rt {α : Type} (f : Json → Option α) (g : α → Json)
    (h : ∀ a, f (g a) = some a) : ∀ o : Option (List α), decArr f (optArrJ g o) = some o := by
  intro o
  cases o with
  | none => rfl
  | some xs => simp [optArrJ, decArr, decList_rt f g h xs]

/-- String-slice decode inverts string-slice encode. -/
theorem decArrStr_rt : ∀ o, decArr decStr (optArrJ Json.str o) = some o :=
  decArr_rt _ _ fun _ => rfl

/-- Round trip for `EvidenceLink`. -/
theorem decodeEvidenceLink_rt (e : EvidenceLink) :
    decodeEvidenceLink (evidenceLinkToJson e) = some e := rfl

/-- Round trip for `GroupedSummary`. -/
theorem decodeGrouped_rt (g : GroupedSummary) : decodeGrouped (groupedToJson g) = some g := by
  simp [decodeGrouped, groupedToJson, getFieldJ, lookupJson, decStr, decArrStr_rt]

/-- Round trip for `RiskInfo`. -/
theorem decodeRisk_rt (r : RiskInfo) : decodeRisk (riskToJson r) = some r := by
  simp [decodeRisk, riskToJson, getFieldJ, lookupJson, decStr, decInt, decArrStr_rt]

/-- Round trip for `SummaryInfo`. -/
theorem decodeSummary_rt (s : SummaryInfo) : decodeSummary (summaryToJson s) = some s := by
  simp [decodeSummary, summaryToJson, getFieldJ, lookupJson, decArrStr_rt,
    decArr_rt decodeGrouped groupedToJson decodeGrouped_rt]

/-- Round trip for `Breaker`. -/
theorem decodeBreaker_rt (b : Breaker) : decodeBreaker (breakerToJson b) = some b := by
  simp [decodeBreaker, breakerToJson, getFieldJ, lookupJson, decStr,
    decArr_rt decodeEvidenceLink evidenceLinkToJson decodeEvidenceLink_rt]

/-- Round trip for `BehaviorChange`. -/
theorem decodeBehaviorChange_rt (b : BehaviorChange) :
    decodeBehaviorChange (behaviorChangeToJson b) = some b := by
  simp [decodeBehaviorChange, behaviorChangeToJson, getFieldJ, lookupJson, decStr,
    decArr_rt decodeEvidenceLink evidenceLinkToJson decodeEvidenceLink_rt]

/-- Round trip for `UpgradeStep`. -/
theorem decodeUpgradeStep_rt (u : UpgradeStep) :
    decodeUpgradeStep (upgradeStepToJson u) = some u := by
  simp [decodeUpgradeStep, upgradeStepToJson, getFieldJ, lookupJson, decStr,
    decArr_rt decodeEvidenceLink evidenceLinkToJson decodeEvidenceLink_rt]

/-- Round trip for `EvidenceItem`. -/
theorem decodeEvidenceItem_rt (e : EvidenceItem) :
    decodeEvidenceItem (evidenceItemToJson e) = some e := rfl

/-- Round trip for `MetaInfo`. -/
theorem decodeMeta_rt (m : MetaInfo) : decodeMeta (metaToJson m) = some m := rfl

/-- Round trip for the whole response document. -/
theorem decodeAnalyzeResponse_rt (r : AnalyzeResponse) :
    decodeAnalyzeResponse (responseToJson r) = some r := by
  simp [decodeAnalyzeResponse, responseToJson, getFieldJ, lookupJson,
    decodeRisk_rt, decodeSummary_rt, decodeMeta_rt,
    decArr_rt decodeBreaker breakerToJson decodeBreaker_rt,
    decArr_rt decodeBehaviorChange behaviorChangeToJson decodeBehaviorChange_rt,
    decArr_rt decodeUpgradeStep upgradeStepToJson decodeUpgradeStep_rt,
    decArr_rt decodeEvidenceItem evidenceItemToJson decodeEvidenceItem_rt]

/-- Clamping is the identity on a value already in `[0, 100]`. -/
theorem clampScore_of_mem (s : Int) (h0 : 0 ≤ s) (h1 : s ≤ 100) : clampScore s = s := by
  unfold clampScore
  split
  · omega
  · split
    · omega
    · rfl

/-- Clamping twice equals clamping once. -/
theorem clampScore_idem (s : Int) : clampScore (clampScore s) = clampScore s :=
  clampScore_of_mem _ (clampScore_mem s).1 (clampScore_mem s).2

/-- Entrywise normalizers are idempotent. -/
theorem normalizeGrouped_idem : normalizeGrouped ∘ normalizeGrouped = normalizeGrouped :=
  funext fun _ => rfl

/-- Entrywise normalizers are idempotent. -/
theorem normalizeBreaker_idem : normalizeBreaker ∘ normalizeBreaker = normalizeBreaker :=
  funext fun _ => rfl

/-- Entrywise normalizers are idempotent. -/
theorem normalizeBehaviorChange_idem :
    normalizeBehaviorChange ∘ normalizeBehaviorChange = normalizeBehaviorChange :=
  funext fun _ => rfl

/-- Entrywise normalizers are idempotent. -/
theorem normalizeUpgradeStep_idem :
    normalizeUpgradeStep ∘ normalizeUpgradeStep = normalizeUpgradeStep :=
  funext fun _ => rfl

/-- The level-overwrite conditional always yields the recomputed level. -/
theorem levelFix (l e : Str) : (if l ≠ e then e else l) = e := by
  split
  · rfl
  · next h => exact not_not.mp h

/-- Normalization is idempotent at the document level. -/
theorem normalizeResponse_idem (r : AnalyzeResponse) :
    normalizeResponse (normalizeResponse r) = normalizeResponse r := by
  simp only [normalizeResponse, Option.getD_some, List.map_map,
    normalizeGrouped_idem, normalizeBreaker_idem, normalizeBehaviorChange_idem,
    normalizeUpgradeStep_idem, clampScore_idem]
  rw [levelFix, levelFix]

/-- C9: normalization is idempotent — a document produced by a
successful run of `validateAndNormalizeResponse`, serialized back to
JSON (modelled at the JSON-value level by `responseToJson`) and run
through validation and normalization again, is returned unchanged. -/
theorem spec_C9 (raw : Str) (resp : AnalyzeResponse)
    (h : validateAndNormalizeResponse raw = .ok resp) :
    validateAndNormalizeJson (responseToJson resp) = .ok resp := by
  obtain ⟨r, rfl⟩ := validate_ok_shape raw resp h
  unfold validateAndNormalizeJson
  rw [decodeAnalyzeResponse_rt]
  show Except.ok (normalizeResponse (normalizeResponse r)) = Except.ok (normalizeResponse r)
  rw [normalizeResponse_idem]

/-- Witness for C9 at the concrete reply `exampleReply`. -/
theorem spec_C9_witness :
    validateAndNormalizeJson (responseToJson exampleNormalized) = .ok exampleNormalized :=
  spec_C9 exampleReply exampleNormalized (by rfl)

/-! ### Error propagation lemmas for C6 / C7 -/

/-- Unfolding equation for a successful page at the head of the walk. -/
theorem getRepoTagsPages_cons_ok (es : List TagEntry)
    (rest : List (Except AppError (List TagEntry))) :
    getRepoTagsPages (Except.ok es :: rest) =
      match getRepoTagsPages rest with
      | .error e2 => .error e2
      | .ok more => .ok (collectTagNames es ++ more) := rfl

/-- The tag page-walk propagates the mapped error of the first failing
page, whatever pages precede or follow it. -/
theorem getRepoTagsPages_propagates (e : AppError) :
    ∀ (okPages rest : List (Except AppError (List TagEntry))),
    (∀ p ∈ okPages, ∃ es, p = Except.ok es) →
    getRepoTagsPages (okPages ++ Except.error e :: rest) = .error (mapGitHubError e) := by
  intro okPages
  induction okPages with
  | nil => intro rest _; rfl
  | cons p ps ih =>
    intro rest hall
    obtain ⟨es, rfl⟩ := hall p (List.mem_cons_self p ps)
    have htl := ih rest fun q hq => hall q (List.mem_cons_of_mem _ hq)
    rw [List.cons_append, getRepoTagsPages_cons_ok, htl]

/-- C7: `mapGitHubError` sends a provider error with HTTP status 404 to
`ErrRepoNotFound` and one with status 403 to `ErrRateLimited`, passes
every other error through unchanged, and the two mapped kinds propagate
unchanged out of the tag listing, the compare call and the release
listing. -/
theorem spec_C7 :
    mapGitHubError (.ghHTTP (some 404)) = .repoNotFound ∧
    mapGitHubError (.ghHTTP (some 403)) = .rateLimited ∧
    (∀ s : Int, s ≠ 404 → s ≠ 403 → mapGitHubError (.ghHTTP (some s)) = .ghHTTP (some s)) ∧
    (∀ e : AppError, (∀ s, e ≠ .ghHTTP (some s)) → mapGitHubError e = e) ∧
    (∀ okPages rest, (∀ p ∈ okPages, ∃ es, p = Except.ok es) →
      getRepoTagsPages (okPages ++ Except.error (.ghHTTP (some 404)) :: rest) =
        .error .repoNotFound) ∧
    (∀ okPages rest, (∀ p ∈ okPages, ∃ es, p = Except.ok es) →
      getRepoTagsPages (okPages ++ Except.error (.ghHTTP (some 403)) :: rest) =
        .error .rateLimited) ∧
    (∀ pages fromTag toTag m mode,
      fetchComparisonData (.error (.ghHTTP (some 404))) pages fromTag toTag m mode =
        .error .repoNotFound) ∧
    (∀ pages fromTag toTag m mode,
      fetchComparisonData (.error (.ghHTTP (some 403))) pages fromTag toTag m mode =
        .error .rateLimited) ∧
    (∀ rest fromTag toTag m,
      fetchReleaseNotes (Except.error (.ghHTTP (some 404)) :: rest) fromTag toTag m =
        .error .repoNotFound) ∧
    (∀ rest fromTag toTag m,
      fetchReleaseNotes (Except.error (.ghHTTP (some 403)) :: rest) fromTag toTag m =
        .error .rateLimited) := by
  refine ⟨rfl, rfl, ?_, ?_, ?_, ?_, ?_, ?_, ?_, ?_⟩
  · intro s h4 h3
    simp only [mapGitHubError]
    rw [if_neg h4, if_neg h3]
  · intro e he
    cases e with
    | repoNotFound => rfl
    | rateLimited => rfl
    | invalidRepoURL => rfl
    | other n => rfl
    | ghHTTP st =>
      cases st with
      | none => rfl
      | some s => exact absurd rfl (he s)
  · exact getRepoTagsPages_propagates _
  · exact getRepoTagsPages_propagates _
  · intro pages fromTag toTag m mode; rfl
  · intro pages fromTag toTag m mode; rfl
  · intro rest fromTag toTag m; rfl
  · intro rest fromTag toTag m; rfl

/-- Witness for C7 at concrete page listings and errors. -/
theorem spec_C7_witness :
    getRepoTagsPages [Except.ok [some (some "v1".toList)],
      Except.error (.ghHTTP (some 404))] = .error .repoNotFound ∧
    mapGitHubError (.other 5) = .other 5 ∧
    mapGitHubError (.ghHTTP (some 500)) = .ghHTTP (some 500) ∧
    fetchReleaseNotes [Except.error (.ghHTTP (some 403))] "a".toList "b".toList 10 =
      .error .rateLimited := by
  refine ⟨?_, ?_, ?_, ?_⟩
  · exact spec_C7.2.2.2.2.1 [Except.ok [some (some "v1".toList)]]
      [] (by intro p hp; simp at hp; exact ⟨_, hp⟩)
  · exact spec_C7.2.2.2.1 (.other 5) (by intro s; simp)
  · exact spec_C7.2.2.1 500 (by decide) (by decide)
  · exact spec_C7.2.2.2.2.2.2.2.2.2 [] "a".toList "b".toList 10

/-- C6: the tag listing concatenates all pages' names in provider order,
skipping entries with an absent name; an empty listing yields an empty
sequence rather than an error; and the first failing page aborts the
whole listing with the mapped error and no partial result. -/
theorem spec_C6 (repoURL : Str) (ident : Str × Str)
    (hurl : ParseGitHubRepoURL repoURL = .ok ident) :
    (∀ pages, GetRepoTags repoURL pages = getRepoTagsPages pages) ∧
    (∀ pages, (∀ p ∈ pages, ∃ es, p = Except.ok es) →
      getRepoTagsPages pages =
        .ok (pages.map fun p =>
          match p with
          | .ok es => collectTagNames es
          | .error _ => []).flatten) ∧
    getRepoTagsPages [] = .ok [] ∧
    (∀ a b c : Str,
      collectTagNames [some (some a), none, some none, some (some b), some (some c)] = [a, b, c]) ∧
    getRepoTagsPages
        [Except.ok [some (some "v1.0.0".toList), some (some "v1.1.0".toList)],
         Except.ok [some (some "v2.0.0".toList)]] =
      .ok ["v1.0.0".toList, "v1.1.0".toList, "v2.0.0".toList] ∧
    (∀ okPages e rest, (∀ p ∈ okPages, ∃ es, p = Except.ok es) →
      getRepoTagsPages (okPages ++ Except.error e :: rest) = .error (mapGitHubError e)) := by
  refine ⟨?_, ?_, rfl, ?_, by rfl, ?_⟩
  · intro pages
    unfold GetRepoTags
    rw [hurl]
  · intro pages
    induction pages with
    | nil => intro _; rfl
    | cons p ps ih =>
      intro hall
      obtain ⟨es, rfl⟩ := hall p (List.mem_cons_self p ps)
      have htl := ih fun q hq => hall q (List.mem_cons_of_mem _ hq)
      rw [getRepoTagsPages_cons_ok, htl, List.map_cons, List.flatten_cons]
  · intro a b c; rfl
  · intro okPages e rest hall
    exact getRepoTagsPages_propagates e okPages rest hall

/-- Witness for C6 at a concrete repository URL and listing. -/
theorem spec_C6_witness :
    GetRepoTags "https://github.com/octo/hello".toList
        [Except.ok [some (some "v1.0.0".toList), some (some "v1.1.0".toList)],
         Except.ok [some (some "v2.0.0".toList)]] =
      getRepoTagsPages
        [Except.ok [some (some "v1.0.0".toList), some (some "v1.1.0".toList)],
         Except.ok [some (some "v2.0.0".toList)]] ∧
    getRepoTagsPages
        [Except.ok [some (some "v1.0.0".toList), some (some "v1.1.0".toList)],
         Except.ok [some (some "v2.0.0".toList)]] =
      .ok ["v1.0.0".toList, "v1.1.0".toList, "v2.0.0".toList] := by
  have h := spec_C6 "https://github.com/octo/hello".toList ("octo".toList, "hello".toList) (by rfl)
  exact ⟨h.1 _, h.2.2.2.2.1⟩

/-! ### Deduplication and commit-title lemmas for C4 -/

/-- Membership in a `filterMap` is preserved by extending the list at
the front. -/
theorem mem_filterMap_cons_of {α β : Type} (f : α → Option β) (a : α) (l : List α) (b : β)
    (hb : b ∈ List.filterMap f l) : b ∈ List.filterMap f (a :: l) := by
  rw [List.filterMap_cons]
  cases f a with
  | none => exact hb
  | some c => exact List.mem_cons_of_mem _ hb

/-- Unfolding: a nil entry contributes nothing to `dedupFiles`. -/
theorem dedupFiles_cons_none (rest : List (Option CommitFile)) (seen : List Str) :
    dedupFiles (none :: rest) seen = dedupFiles rest seen := rfl

/-- Unfolding: one `dedupFiles` step on a non-nil entry. -/
theorem dedupFiles_cons_some (file : CommitFile) (rest : List (Option CommitFile))
    (seen : List Str) :
    dedupFiles (some file :: rest) seen =
      if file.filename = [] then dedupFiles rest seen
      else if file.filename ∈ seen then dedupFiles rest seen
      else file.filename :: dedupFiles rest (file.filename :: seen) := rfl

/-- Unfolding: a nil entry contributes no qualifying filename. -/
theorem validFileNames_cons_none (rest : List (Option CommitFile)) :
    validFileNames (none :: rest) = validFileNames rest := by
  simp [validFileNames, List.filterMap_cons]

/-- Unfolding: one `validFileNames` step on a non-nil entry. -/
theorem validFileNames_cons_some (file : CommitFile) (rest : List (Option CommitFile)) :
    validFileNames (some file :: rest) =
      if file.filename = [] then validFileNames rest
      else file.filename :: validFileNames rest := by
  by_cases h : file.filename = [] <;> simp [validFileNames, List.filterMap_cons, h]

/-- The collected changed files are a sublist of the qualifying
filenames, so first-seen order is preserved. -/
theorem dedupFiles_sublist (fs : List (Option CommitFile)) :
    ∀ seen, List.Sublist (dedupFiles fs seen) (validFileNames fs) := by
  induction fs with
  | nil => intro seen; simp [dedupFiles, validFileNames]
  | cons f rest ih =>
    intro seen
    cases f with
    | none => rw [dedupFiles_cons_none, validFileNames_cons_none]; exact ih seen
    | some file =>
      by_cases h0 : file.filename = []
      · rw [dedupFiles_cons_some, validFileNames_cons_some, if_pos h0, if_pos h0]
        exact ih seen
      · rw [dedupFiles_cons_some, validFileNames_cons_some, if_neg h0, if_neg h0]
        by_cases hseen : file.filename ∈ seen
        · rw [if_pos hseen]
          exact (ih seen).trans (List.sublist_cons_self _ _)
        · rw [if_neg hseen]
          exact (ih _).cons₂ _

/-- The collected changed files contain no duplicate and avoid the
already-seen set. -/
theorem dedupFiles_nodup (fs : List (Option CommitFile)) :
    ∀ seen, (dedupFiles fs seen).Nodup ∧ ∀ x ∈ dedupFiles fs seen, x ∉ seen := by
  induction fs with
  | nil => intro seen; simp [dedupFiles]
  | cons f rest ih =>
    intro seen
    cases f with
    | none => rw [dedupFiles_cons_none]; exact ih seen
    | some file =>
      by_cases h0 : file.filename = []
      · rw [dedupFiles_cons_some, if_pos h0]; exact ih seen
      · by_cases hseen : file.filename ∈ seen
        · rw [dedupFiles_cons_some, if_neg h0, if_pos hseen]; exact ih seen
        · rw [dedupFiles_cons_some, if_neg h0, if_neg hseen]
          obtain ⟨hnd, hout⟩ := ih (file.filename :: seen)
          refine ⟨List.nodup_cons.mpr ⟨?_, hnd⟩, ?_⟩
          · intro hmem
            exact hout _ hmem (List.mem_cons_self _ _)
          · intro x hx hxseen
            rcases List.mem_cons.mp hx with rfl | hx2
            · exact hseen hxseen
            · exact hout x hx2 (List.mem_cons_of_mem _ hxseen)

/-- Every qualifying filename ends up collected (or was already seen). -/
theorem dedupFiles_complete (fs : List (Option CommitFile)) :
    ∀ seen x, x ∈ validFileNames fs → x ∈ dedupFiles fs seen ∨ x ∈ seen := by
  induction fs with
  | nil => intro seen x hx; simp [validFileNames] at hx
  | cons f rest ih =>
    intro seen x hx
    cases f with
    | none =>
      rw [validFileNames_cons_none] at hx
      rw [dedupFiles_cons_none]
      exact ih seen x hx
    | some file =>
      by_cases h0 : file.filename = []
      · rw [validFileNames_cons_some, if_pos h0] at hx
        rw [dedupFiles_cons_some, if_pos h0]
        exact ih seen x hx
      · rw [validFileNames_cons_some, if_neg h0] at hx
        rw [dedupFiles_cons_some, if_neg h0]
        rcases List.mem_cons.mp hx with rfl | hx2
        · by_cases hseen : file.filename ∈ seen
          · rw [if_pos hseen]; exact Or.inr hseen
          · rw [if_neg hseen]; exact Or.inl (List.mem_cons_self _ _)
        · by_cases hseen : file.filename ∈ seen
          · rw [if_pos hseen]; exact ih seen x hx2
          · rw [if_neg hseen]
            rcases ih (file.filename :: seen) x hx2 with hin | hin
            · exact Or.inl (List.mem_cons_of_mem _ hin)
            · rcases List.mem_cons.mp hin with rfl | hs
              · exact Or.inl (List.mem_cons_self _ _)
              · exact Or.inr hs

/-- The seven-character SHA truncation is a plain `take 7`. -/
theorem shaTrunc_eq_take (l : Str) : (if l.length > 7 then l.take 7 else l) = l.take 7 := by
  split
  · rfl
  · next h => exact (List.take_of_length_le (by omega)).symm

/-- Unfolding: a nil commit contributes nothing to either list. -/
theorem validCommits_cons_none (rest : List (Option RepoCommit)) :
    validCommits (none :: rest) = validCommits rest := by
  simp [validCommits, List.filterMap_cons]

/-- Unfolding: a commit with a nil payload contributes nothing. -/
theorem validCommits_cons_someNone (c : RepoCommit) (rest : List (Option RepoCommit))
    (hcc : c.commit = none) : validCommits (some c :: rest) = validCommits rest := by
  simp [validCommits, List.filterMap_cons, hcc]

/-- Unfolding: one `validCommits` step on a commit with a payload. -/
theorem validCommits_cons_some (c : RepoCommit) (inner : CommitInner)
    (rest : List (Option RepoCommit)) (hcc : c.commit = some inner) :
    validCommits (some c :: rest) =
      if trimSpaceC inner.message = [] then validCommits rest
      else (c.sha, trimSpaceC inner.message) :: validCommits rest := by
  by_cases hm : trimSpaceC inner.message = [] <;>
    simp [validCommits, List.filterMap_cons, hcc, hm]

/-- Unfolding: nil commits and nil payloads contribute no title. -/
theorem buildCommitTitles_cons_none (mode : Str) (rest : List (Option RepoCommit)) :
    buildCommitTitles mode (none :: rest) = buildCommitTitles mode rest := by
  simp [buildCommitTitles, List.filterMap_cons]

/-- Unfolding: nil commits and nil payloads contribute no title. -/
theorem buildCommitTitles_cons_someNone (mode : Str) (c : RepoCommit)
    (rest : List (Option RepoCommit)) (hcc : c.commit = none) :
    buildCommitTitles mode (some c :: rest) = buildCommitTitles mode rest := by
  simp [buildCommitTitles, List.filterMap_cons, hcc]

/-- Unfolding: an empty trimmed message contributes no title. -/
theorem buildCommitTitles_cons_skip (mode : Str) (c : RepoCommit) (inner : CommitInner)
    (rest : List (Option RepoCommit)) (hcc : c.commit = some inner)
    (hm : trimSpaceC inner.message = []) :
    buildCommitTitles mode (some c :: rest) = buildCommitTitles mode rest := by
  simp [buildCommitTitles, List.filterMap_cons, hcc, hm]

/-- Unfolding: in deep mode, a qualifying commit with a non-empty SHA
contributes a hash-prefixed title. -/
theorem buildCommitTitles_deep_cons (c : RepoCommit) (inner : CommitInner)
    (rest : List (Option RepoCommit)) (hcc : c.commit = some inner)
    (hm : trimSpaceC inner.message ≠ []) (hsha : c.sha ≠ []) :
    buildCommitTitles "deep".toList (some c :: rest) =
      (c.sha.take 7 ++ ": ".toList ++ firstLine (trimSpaceC inner.message)) ::
        buildCommitTitles "deep".toList rest := by
  have htake : c.sha.take 7 ≠ [] := by simp [List.take_eq_nil_iff, hsha]
  simp only [buildCommitTitles, List.filterMap_cons, hcc, if_neg hm, shaTrunc_eq_take,
    ite_true, if_neg htake]

/-- In deep mode, when every qualifying commit carries a non-empty SHA,
the produced titles are exactly the first seven SHA characters, a colon
and a space, and the first line of the trimmed message, in commit
order. -/
theorem buildCommitTitles_deep (commits : List (Option RepoCommit))
    (h : ∀ p ∈ validCommits commits, p.1 ≠ []) :
    buildCommitTitles "deep".toList commits =
      (validCommits commits).map fun p => p.1.take 7 ++ ": ".toList ++ firstLine p.2 := by
  induction commits with
  | nil => rfl
  | cons oc rest ih =>
    have hrest : ∀ p ∈ validCommits rest, p.1 ≠ [] := fun p hp =>
      h p (mem_filterMap_cons_of _ oc rest p hp)
    cases oc with
    | none =>
      rw [buildCommitTitles_cons_none, validCommits_cons_none]
      exact ih hrest
    | some c =>
      cases hcc : c.commit with
      | none =>
        rw [buildCommitTitles_cons_someNone _ _ _ hcc, validCommits_cons_someNone _ _ hcc]
        exact ih hrest
      | some inner =>
        by_cases hm : trimSpaceC inner.message = []
        · rw [buildCommitTitles_cons_skip _ _ _ _ hcc hm, validCommits_cons_some _ _ _ hcc,
            if_pos hm]
          exact ih hrest
        · have hsha : c.sha ≠ [] := by
            refine h (c.sha, trimSpaceC inner.message) ?_
            rw [validCommits_cons_some _ _ _ hcc, if_neg hm]
            exact List.mem_cons_self _ _
          rw [buildCommitTitles_deep_cons _ _ _ hcc hm hsha, validCommits_cons_some _ _ _ hcc,
            if_neg hm, List.map_cons]
          exact congrArg _ (ih hrest)

/-- Shape of a successful aggregation: the titles and changed files of
the returned data are the ones built from the compare result. -/
theorem fetchComparisonData_ok_shape (cmp : CompareResult)
    (pages : List (Except AppError (List (Option Release)))) (fromTag toTag mode : Str)
    (m : Int) (d : comparisonData)
    (h : fetchComparisonData (.ok cmp) pages fromTag toTag m mode = .ok d) :
    d.commitTitles = buildCommitTitles mode cmp.commits ∧
    d.changedFiles = buildChangedFiles mode cmp.files := by
  simp only [fetchComparisonData] at h
  split at h
  · cases h
  · cases h
    exact ⟨rfl, rfl⟩

/-- The serialized bundle carries a `changedFiles` field exactly when
the changed-file list is non-empty (omitempty semantics). -/
theorem bundle_hasKey (b : analysisInputBundle) :
    hasKey (bundleToJson b) "changedFiles".toList = !b.changedFiles.isEmpty := by
  have h1 : ("repo".toList == "changedFiles".toList) = false := by decide
  have h2 : ("from".toList == "changedFiles".toList) = false := by decide
  have h3 : ("to".toList == "changedFiles".toList) = false := by decide
  have h4 : ("releaseNotes".toList == "changedFiles".toList) = false := by decide
  have h5 : ("commitTitles".toList == "changedFiles".toList) = false := by decide
  have h6 : ("changedFiles".toList == "changedFiles".toList) = true := by decide
  cases hc : b.changedFiles.isEmpty <;>
    simp [bundleToJson, hasKey, hc, List.any_append, List.any_cons, List.any_nil,
      h1, h2, h3, h4, h5, h6]

/-- Counterexample to C4 as stated: a successful deep-mode aggregation
whose compare result has no changed files serializes to a bundle with
no `changedFiles` field at all — deep mode does not always include a
non-absent `changedFiles` field. -/
theorem spec_C4_counterexample :
    fetchComparisonData (.ok exampleCompareNoFiles) [Except.ok []] "v1.0.0".toList
        "v1.1.0".toList 10 "deep".toList =
      .ok ⟨[], ["abc1234: feat: add API".toList], []⟩ ∧
    hasKey (bundleToJson (mkBundle "https://github.com/octo/hello".toList "v1.0.0".toList
        "v1.1.0".toList ⟨[], ["abc1234: feat: add API".toList], []⟩)) "changedFiles".toList =
      false :=
  ⟨by rfl, by rfl⟩

/-- C4 (amended): for every successful deep-mode aggregation the
serialized bundle carries `changedFiles` exactly when at least one
changed-file path was collected (an empty collection is omitted by the
field's `omitempty` option); the collected paths are exactly the
qualifying filenames deduplicated by exact match in first-seen order;
and when every qualifying commit has a non-empty hash, each commit
title is the first seven hash characters, a colon and a space, and the
first message line.  For every successful fast-mode aggregation the
serialized bundle never carries `changedFiles`. -/
theorem spec_C4 (cmp : CompareResult)
    (pages : List (Except AppError (List (Option Release))))
    (fromTag toTag repoUrl : Str) (m : Int) (d d2 : comparisonData) :
    (fetchComparisonData (.ok cmp) pages fromTag toTag m "deep".toList = .ok d →
      hasKey (bundleToJson (mkBundle repoUrl fromTag toTag d)) "changedFiles".toList =
        !d.changedFiles.isEmpty ∧
      d.changedFiles.Nodup ∧
      List.Sublist d.changedFiles (validFileNames cmp.files) ∧
      (∀ n ∈ validFileNames cmp.files, n ∈ d.changedFiles) ∧
      ((∀ p ∈ validCommits cmp.commits, p.1 ≠ []) →
        d.commitTitles =
          (validCommits cmp.commits).map fun p =>
            p.1.take 7 ++ ": ".toList ++ firstLine p.2)) ∧
    (fetchComparisonData (.ok cmp) pages fromTag toTag m "fast".toList = .ok d2 →
      hasKey (bundleToJson (mkBundle repoUrl fromTag toTag d2)) "changedFiles".toList =
        false) := by
  constructor
  · intro h
    obtain ⟨ht, hc⟩ := fetchComparisonData_ok_shape _ _ _ _ _ _ _ h
    have hcf : d.changedFiles = dedupFiles cmp.files [] := by rw [hc]; rfl
    refine ⟨bundle_hasKey _, ?_, ?_, ?_, ?_⟩
    · rw [hcf]
      exact (dedupFiles_nodup cmp.files []).1
    · rw [hcf]
      exact dedupFiles_sublist cmp.files []
    · intro n hn
      rw [hcf]
      rcases dedupFiles_complete cmp.files [] n hn with h1 | h1
      · exact h1
      · cases h1
    · intro hsha
      rw [ht]
      exact buildCommitTitles_deep cmp.commits hsha
  · intro h
    obtain ⟨ht, hc⟩ := fetchComparisonData_ok_shape _ _ _ _ _ _ _ h
    have hcf : d2.changedFiles = [] := by rw [hc]; rfl
    rw [bundle_hasKey]
    show (!d2.changedFiles.isEmpty) = false
    rw [hcf]
    rfl

/-- Witness for C4 (amended) at the concrete compare result
`exampleCompare` (one commit, one duplicated changed file). -/
theorem spec_C4_witness :
    (hasKey (bundleToJson (mkBundle "u".toList "f".toList "t".toList exampleDeepData))
        "changedFiles".toList = !exampleDeepData.changedFiles.isEmpty ∧
      exampleDeepData.changedFiles.Nodup ∧
      List.Sublist exampleDeepData.changedFiles (validFileNames exampleCompare.files) ∧
      (∀ n ∈ validFileNames exampleCompare.files, n ∈ exampleDeepData.changedFiles) ∧
      ((∀ p ∈ validCommits exampleCompare.commits, p.1 ≠ []) →
        exampleDeepData.commitTitles =
          (validCommits exampleCompare.commits).map fun p =>
            p.1.take 7 ++ ": ".toList ++ firstLine p.2)) ∧
    hasKey (bundleToJson (mkBundle "u".toList "f".toList "t".toList exampleFastData))
        "changedFiles".toList = false :=
  ⟨(spec_C4 exampleCompare [Except.ok []] "f".toList "t".toList "u".toList 10
      exampleDeepData exampleFastData).1 (by rfl),
   (spec_C4 exampleCompare [Except.ok []] "f".toList "t".toList "u".toList 10
      exampleDeepData exampleFastData).2 (by rfl)⟩

/-! ### Release-window scan lemmas for C2 / C3 -/

/-- Clamping is the identity when the list is already within the cap. -/
theorem clamp_of_le (notes : List releaseNote) (m : Int) (h : (notes.length : Int) ≤ m) :
    clampReleaseNotes notes m = notes := by
  unfold clampReleaseNotes
  split
  · rfl
  · split
    · next h2 => exact absurd h2 (by omega)
    · rfl

/-- The inner scan over concatenated entry lists runs the first part and
continues into the second from the reached state. -/
theorem scanEntries_append (fromTag toTag : Str) (m : Int) (b : List (Option Release)) :
    ∀ (a : List (Option Release)) (st : ScanSt),
      scanEntries fromTag toTag m (a ++ b) st =
        match scanEntries fromTag toTag m a st with
        | .inl st2 => scanEntries fromTag toTag m b st2
        | .inr r => .inr r := by
  intro a
  induction a with
  | nil => intro st; rfl
  | cons e rest ih =>
    intro st
    show (match scanEntry fromTag toTag m st e with
          | .inl st2 => scanEntries fromTag toTag m (rest ++ b) st2
          | .inr r => .inr r) =
         (match (match scanEntry fromTag toTag m st e with
                 | .inl st2 => scanEntries fromTag toTag m rest st2
                 | .inr r => .inr r) with
          | .inl st3 => scanEntries fromTag toTag m b st3
          | .inr r => .inr r)
    cases scanEntry fromTag toTag m st e with
    | inl st2 => exact ih st2
    | inr r => rfl

/-- Over pages that all succeed, the page-walk is the flat scan over the
concatenated entries, finished by the fall-through clamp. -/
theorem fetchPages_ok (fromTag toTag : Str) (m : Int) (pages : List (List (Option Release))) :
    ∀ st, fetchReleaseNotesPages fromTag toTag m (pages.map Except.ok) st =
      .ok (scanOutcome m (scanEntries fromTag toTag m pages.flatten st)) := by
  induction pages with
  | nil => intro st; rfl
  | cons p ps ih =>
    intro st
    rw [List.map_cons, List.flatten_cons, scanEntries_append]
    show (match scanEntries fromTag toTag m p st with
          | .inr r => Except.ok r
          | .inl st2 => fetchReleaseNotesPages fromTag toTag m (ps.map Except.ok) st2) =
         Except.ok (scanOutcome m
           (match scanEntries fromTag toTag m p st with
            | .inl st2 => scanEntries fromTag toTag m ps.flatten st2
            | .inr r => .inr r))
    cases scanEntries fromTag toTag m p st with
    | inl st2 => exact ih st2
    | inr r => rfl

/-- A raw entry step with a non-empty trimmed tag is a cleaned step on
the note it contributes. -/
theorem scanEntry_eq_step (fromTag toTag : Str) (m : Int) (st : ScanSt) (r : Release)
    (htag : trimSpaceC r.tagName ≠ []) :
    scanEntry fromTag toTag m st (some r) =
      scanNoteStep fromTag toTag m st ⟨trimSpaceC r.tagName, truncBody r.body⟩ := by
  simp only [scanEntry, scanNoteStep, if_neg htag]
  rfl

/-- The scan over raw entries equals the cleaned scan over the notes the
entries would contribute. -/
theorem scanEntries_eq_scanNotes (fromTag toTag : Str) (m : Int) :
    ∀ (es : List (Option Release)) (st : ScanSt),
      scanEntries fromTag toTag m es st = scanNotes fromTag toTag m (cleanEntries es) st := by
  intro es
  induction es with
  | nil => intro st; rfl
  | cons e rest ih =>
    intro st
    cases e with
    | none =>
      have hclean : cleanEntries (none :: rest) = cleanEntries rest := by
        simp [cleanEntries, List.filterMap_cons]
      rw [hclean]
      show scanEntries fromTag toTag m rest st = _
      exact ih st
    | some r =>
      by_cases htag : trimSpaceC r.tagName = []
      · have hclean : cleanEntries (some r :: rest) = cleanEntries rest := by
          simp [cleanEntries, List.filterMap_cons, htag]
        rw [hclean]
        show (match scanEntry fromTag toTag m st (some r) with
              | .inl st2 => scanEntries fromTag toTag m rest st2
              | .inr r2 => .inr r2) = _
        have hskip : scanEntry fromTag toTag m st (some r) = .inl st := by
          simp [scanEntry, htag]
        rw [hskip]
        exact ih st
      · have hclean : cleanEntries (some r :: rest) =
            ⟨trimSpaceC r.tagName, truncBody r.body⟩ :: cleanEntries rest := by
          simp [cleanEntries, List.filterMap_cons, htag]
        rw [hclean]
        show (match scanEntry fromTag toTag m st (some r) with
              | .inl st2 => scanEntries fromTag toTag m rest st2
              | .inr r2 => .inr r2) =
             (match scanNoteStep fromTag toTag m st ⟨trimSpaceC r.tagName, truncBody r.body⟩ with
              | .inl st2 => scanNotes fromTag toTag m (cleanEntries rest) st2
              | .inr r2 => .inr r2)
        rw [scanEntry_eq_step fromTag toTag m st r htag]
        cases scanNoteStep fromTag toTag m st ⟨trimSpaceC r.tagName, truncBody r.body⟩ with
        | inl st2 => exact ih st2
        | inr r2 => rfl

/-- A collecting run appends notes in encountered order until the end
boundary is matched or the cap is reached, exactly as the spec's
`collectUntil` describes. -/
theorem scanNotes_collecting (fromTag toTag : Str) (m : Int) :
    ∀ (ns : List releaseNote) (notes : List releaseNote) (endT : Str),
    (notes.length : Int) < m →
    scanOutcome m (scanNotes fromTag toTag m ns ⟨notes, true, endT⟩) =
      notes ++ collectUntil endT (m - notes.length) ns := by
  intro ns
  induction ns with
  | nil =>
    intro notes endT h
    show clampReleaseNotes notes m = notes ++ collectUntil endT (m - notes.length) []
    rw [clamp_of_le notes m h.le]
    show notes = notes ++ []
    rw [List.append_nil]
  | cons n rest ih =>
    intro notes endT h
    have hstep : scanNoteStep fromTag toTag m ⟨notes, true, endT⟩ n =
        scanStepN m ⟨notes, true, endT⟩ n := by
      simp [scanNoteStep]
    show scanOutcome m (match scanNoteStep fromTag toTag m ⟨notes, true, endT⟩ n with
          | .inl st2 => scanNotes fromTag toTag m rest st2
          | .inr r => .inr r) = _
    rw [hstep]
    by_cases hend : n.tag = endT
    · have hsN : scanStepN m ⟨notes, true, endT⟩ n =
          .inr (clampReleaseNotes (notes ++ [n]) m) := by
        simp [scanStepN, hend]
      rw [hsN]
      show clampReleaseNotes (notes ++ [n]) m = _
      rw [clamp_of_le _ _ (by simp; omega)]
      have hcoll : collectUntil endT (m - notes.length) (n :: rest) = [n] := by
        simp [collectUntil, hend]
      rw [hcoll]
    · by_cases hcap : ((notes ++ [n]).length : Int) ≥ m
      · have hsN : scanStepN m ⟨notes, true, endT⟩ n =
            .inr (clampReleaseNotes (notes ++ [n]) m) := by
          simp only [scanStepN, if_neg hend, if_pos hcap]
        rw [hsN]
        show clampReleaseNotes (notes ++ [n]) m = _
        have hlen : ((notes ++ [n]).length : Int) = notes.length + 1 := by simp
        rw [clamp_of_le _ _ (by omega)]
        have hcap1 : m - notes.length ≤ 1 := by omega
        have hcoll : collectUntil endT (m - notes.length) (n :: rest) = [n] := by
          simp [collectUntil, hcap1]
        rw [hcoll]
      · have hsN : scanStepN m ⟨notes, true, endT⟩ n =
            .inl ⟨notes ++ [n], true, endT⟩ := by
          simp only [scanStepN, if_neg hend, if_neg hcap]
        rw [hsN]
        have hlt : ((notes ++ [n]).length : Int) < m := by
          simp only [List.length_append, List.length_cons, List.length_nil]
          push_cast
          simp only [List.length_append, List.length_cons, List.length_nil] at hcap
          push_cast at hcap
          omega
        show scanOutcome m (scanNotes fromTag toTag m rest ⟨notes ++ [n], true, endT⟩) = _
        rw [ih (notes ++ [n]) endT hlt]
        have hcoll : collectUntil endT (m - notes.length) (n :: rest) =
            n :: collectUntil endT (m - notes.length - 1) rest := by
          have hcap1 : ¬ (m - notes.length ≤ 1) := by
            simp only [List.length_append, List.length_cons, List.length_nil] at hcap
            push_cast at hcap
            omega
          simp [collectUntil, hend, hcap1]
        rw [hcoll]
        have harith : m - ((notes ++ [n]).length : Int) = m - notes.length - 1 := by
          simp only [List.length_append, List.length_cons, List.length_nil]
          push_cast
          omega
        rw [harith, List.append_assoc]
        rfl

/-- Once the first boundary entry is reached, the scan from the seeking
state behaves as a fresh collecting run with the derived end boundary. -/
theorem scanNotes_start (fromTag toTag : Str) (m : Int) (n : releaseNote)
    (rest : List releaseNote) (e0 : Str) (hb : n.tag = fromTag ∨ n.tag = toTag) :
    scanNotes fromTag toTag m (n :: rest) ⟨[], false, e0⟩ =
      scanNotes fromTag toTag m (n :: rest)
        ⟨[], true, if n.tag = fromTag then toTag else fromTag⟩ := by
  have h1 : scanNoteStep fromTag toTag m ⟨[], false, e0⟩ n =
      scanStepN m ⟨[], true, if n.tag = fromTag then toTag else fromTag⟩ n := by
    simp [scanNoteStep, hb]
  have h2 : scanNoteStep fromTag toTag m
      ⟨[], true, if n.tag = fromTag then toTag else fromTag⟩ n =
      scanStepN m ⟨[], true, if n.tag = fromTag then toTag else fromTag⟩ n := by
    simp [scanNoteStep]
  show (match scanNoteStep fromTag toTag m ⟨[], false, e0⟩ n with
        | .inl st2 => scanNotes fromTag toTag m rest st2
        | .inr r => .inr r) =
       (match scanNoteStep fromTag toTag m
            ⟨[], true, if n.tag = fromTag then toTag else fromTag⟩ n with
        | .inl st2 => scanNotes fromTag toTag m rest st2
        | .inr r => .inr r)
  rw [h1, h2]

/-- The full scan from the initial state is the spec-level window scan. -/
theorem scanNotes_spec (fromTag toTag : Str) (m : Int) (hm : 1 ≤ m) :
    ∀ (ns : List releaseNote) (e0 : Str),
      scanOutcome m (scanNotes fromTag toTag m ns ⟨[], false, e0⟩) =
        releaseWindowSpec fromTag toTag m ns := by
  intro ns
  induction ns with
  | nil =>
    intro e0
    show clampReleaseNotes [] m = releaseWindowSpec fromTag toTag m []
    rw [clamp_of_le [] m (by simp; omega)]
    rfl
  | cons n rest ih =>
    intro e0
    by_cases hb : n.tag = fromTag ∨ n.tag = toTag
    · rw [scanNotes_start fromTag toTag m n rest e0 hb]
      rw [scanNotes_collecting fromTag toTag m (n :: rest) []
        (if n.tag = fromTag then toTag else fromTag) (by simp; omega)]
      have hdrop : (n :: rest).dropWhile (fun x => !isBoundary fromTag toTag x) = n :: rest := by
        rw [List.dropWhile_cons]
        have : isBoundary fromTag toTag n = true := by
          simp [isBoundary]
          rcases hb with hb | hb
          · exact Or.inl hb
          · exact Or.inr hb
        rw [this]
        simp
      show [] ++ collectUntil (if n.tag = fromTag then toTag else fromTag) (m - ([] : List releaseNote).length) (n :: rest) = _
      rw [List.nil_append]
      unfold releaseWindowSpec
      rw [hdrop]
      show collectUntil _ (m - 0) _ = collectUntil _ m _
      rw [show m - (0 : Int) = m by omega]
    · have hstep : scanNoteStep fromTag toTag m ⟨[], false, e0⟩ n = .inl ⟨[], false, e0⟩ := by
        simp [scanNoteStep, hb]
      show scanOutcome m (match scanNoteStep fromTag toTag m ⟨[], false, e0⟩ n with
            | .inl st2 => scanNotes fromTag toTag m rest st2
            | .inr r => .inr r) = _
      rw [hstep]
      show scanOutcome m (scanNotes fromTag toTag m rest ⟨[], false, e0⟩) = _
      rw [ih e0]
      unfold releaseWindowSpec
      have hnb : isBoundary fromTag toTag n = false := by
        simp [isBoundary]
        exact ⟨fun h => hb (Or.inl h), fun h => hb (Or.inr h)⟩
      rw [List.dropWhile_cons]
      rw [hnb]
      simp

/-- One scan iteration treats `fromTag` and `toTag` symmetrically. -/
theorem scanEntry_symm (fromTag toTag : Str) (m : Int) (st : ScanSt) (e : Option Release) :
    scanEntry fromTag toTag m st e = scanEntry toTag fromTag m st e := by
  cases e with
  | none => rfl
  | some rel =>
    by_cases htag : trimSpaceC rel.tagName = []
    · simp [scanEntry, htag]
    · rw [scanEntry_eq_step _ _ _ _ _ htag, scanEntry_eq_step _ _ _ _ _ htag]
      unfold scanNoteStep
      dsimp only
      by_cases hc : st.collecting = true
      · rw [if_pos hc, if_pos hc]
      · rw [if_neg hc, if_neg hc]
        by_cases hf : trimSpaceC rel.tagName = fromTag
        · by_cases ht2 : trimSpaceC rel.tagName = toTag
          · have hft : fromTag = toTag := hf.symm.trans ht2
            subst hft
            rfl
          · rw [if_pos (Or.inl hf), if_pos (Or.inr hf), if_pos hf, if_neg ht2]
        · by_cases ht2 : trimSpaceC rel.tagName = toTag
          · rw [if_pos (Or.inr ht2), if_pos (Or.inl ht2), if_neg hf, if_pos ht2]
          · rw [if_neg (by tauto), if_neg (by tauto)]

/-- The inner page loop treats `fromTag` and `toTag` symmetrically. -/
theorem scanEntries_symm (fromTag toTag : Str) (m : Int) :
    ∀ (es : List (Option Release)) (st : ScanSt),
      scanEntries fromTag toTag m es st = scanEntries toTag fromTag m es st := by
  intro es
  induction es with
  | nil => intro st; rfl
  | cons e rest ih =>
    intro st
    show (match scanEntry fromTag toTag m st e with
          | .inl st2 => scanEntries fromTag toTag m rest st2
          | .inr r => .inr r) =
         (match scanEntry toTag fromTag m st e with
          | .inl st2 => scanEntries toTag fromTag m rest st2
          | .inr r => .inr r)
    rw [scanEntry_symm]
    cases scanEntry toTag fromTag m st e with
    | inl st2 => exact ih st2
    | inr r => rfl

/-- The page-walk treats `fromTag` and `toTag` symmetrically. -/
theorem fetchPages_symm (fromTag toTag : Str) (m : Int) :
    ∀ (pages : List (Except AppError (List (Option Release)))) (st : ScanSt),
      fetchReleaseNotesPages fromTag toTag m pages st =
        fetchReleaseNotesPages toTag fromTag m pages st := by
  intro pages
  induction pages with
  | nil => intro st; rfl
  | cons page rest ih =>
    intro st
    cases page with
    | error e => rfl
    | ok entries =>
      show (match scanEntries fromTag toTag m entries st with
            | .inr r => Except.ok r
            | .inl st2 => fetchReleaseNotesPages fromTag toTag m rest st2) =
           (match scanEntries toTag fromTag m entries st with
            | .inr r => Except.ok r
            | .inl st2 => fetchReleaseNotesPages toTag fromTag m rest st2)
      rw [scanEntries_symm]
      cases scanEntries toTag fromTag m entries st with
      | inl st2 => exact ih st2
      | inr r => rfl

/-- The clamped and unclamped forms of one collecting step agree while
the invariant `st.notes.length < maxReleases` holds, and any early
return stays within the cap. -/
theorem scanStep_parallel (m : Int) (st : ScanSt) (tag body : Str)
    (h : (st.notes.length : Int) < m) :
    (∃ st2, scanStepU m st tag body = .inl st2 ∧ scanStep m st tag body = .inl st2 ∧
      (st2.notes.length : Int) < m) ∨
    (∃ r, scanStepU m st tag body = .inr r ∧ scanStep m st tag body = .inr r ∧
      (r.length : Int) ≤ m) := by
  have hlen : ((st.notes ++ [(⟨tag, truncBody body⟩ : releaseNote)]).length : Int) =
      (st.notes.length : Int) + 1 := by simp
  by_cases hend : tag = st.endTag
  · right
    refine ⟨st.notes ++ [(⟨tag, truncBody body⟩ : releaseNote)], ?_, ?_, by omega⟩
    · simp only [scanStepU, if_pos hend]
    · simp only [scanStep, if_pos hend]
      rw [clamp_of_le _ _ (by omega)]
  · by_cases hcap :
      ((st.notes ++ [(⟨tag, truncBody body⟩ : releaseNote)]).length : Int) ≥ m
    · right
      refine ⟨st.notes ++ [(⟨tag, truncBody body⟩ : releaseNote)], ?_, ?_, by omega⟩
      · simp only [scanStepU, if_neg hend, if_pos hcap]
      · simp only [scanStep, if_neg hend, if_pos hcap]
        rw [clamp_of_le _ _ (by omega)]
    · left
      refine ⟨{ st with notes := st.notes ++ [(⟨tag, truncBody body⟩ : releaseNote)] },
        ?_, ?_, ?_⟩
      · simp only [scanStepU, if_neg hend, if_neg hcap]
      · simp only [scanStep, if_neg hend, if_neg hcap]
      · show ((st.notes ++ [(⟨tag, truncBody body⟩ : releaseNote)]).length : Int) < m
        omega

/-- The clamped and unclamped forms of one scan iteration agree under
the invariant. -/
theorem scanEntry_parallel (fromTag toTag : Str) (m : Int) (st : ScanSt) (e : Option Release)
    (h : (st.notes.length : Int) < m) :
    (∃ st2, scanEntryU fromTag toTag m st e = .inl st2 ∧
      scanEntry fromTag toTag m st e = .inl st2 ∧ (st2.notes.length : Int) < m) ∨
    (∃ r, scanEntryU fromTag toTag m st e = .inr r ∧
      scanEntry fromTag toTag m st e = .inr r ∧ (r.length : Int) ≤ m) := by
  cases e with
  | none => exact Or.inl ⟨st, rfl, rfl, h⟩
  | some rel =>
    by_cases htag : trimSpaceC rel.tagName = []
    · exact Or.inl ⟨st, by simp [scanEntryU, htag], by simp [scanEntry, htag], h⟩
    · by_cases hc : st.collecting = true
      · have hU : scanEntryU fromTag toTag m st (some rel) =
            scanStepU m st (trimSpaceC rel.tagName) rel.body := by
          simp [scanEntryU, htag, hc]
        have hC : scanEntry fromTag toTag m st (some rel) =
            scanStep m st (trimSpaceC rel.tagName) rel.body := by
          simp [scanEntry, htag, hc]
        rw [hU, hC]
        exact scanStep_parallel m st _ _ h
      · by_cases hbound : trimSpaceC rel.tagName = fromTag ∨ trimSpaceC rel.tagName = toTag
        · have hU : scanEntryU fromTag toTag m st (some rel) = scanStepU m ({ st with collecting := true, endTag := if trimSpaceC rel.tagName = fromTag then toTag else fromTag }) (trimSpaceC rel.tagName) rel.body := by
            simp [scanEntryU, htag, hc, hbound]
          have hC : scanEntry fromTag toTag m st (some rel) = scanStep m ({ st with collecting := true, endTag := if trimSpaceC rel.tagName = fromTag then toTag else fromTag }) (trimSpaceC rel.tagName) rel.body := by
            simp [scanEntry, htag, hc, hbound]
          rw [hU, hC]
          exact scanStep_parallel m _ _ _ h
        · exact Or.inl ⟨st, by simp [scanEntryU, htag, hc, hbound],
            by simp [scanEntry, htag, hc, hbound], h⟩

/-- The clamped and unclamped inner loops agree under the invariant. -/
theorem scanEntries_parallel (fromTag toTag : Str) (m : Int) :
    ∀ (es : List (Option Release)) (st : ScanSt), (st.notes.length : Int) < m →
    (∃ st2, scanEntriesU fromTag toTag m es st = .inl st2 ∧
      scanEntries fromTag toTag m es st = .inl st2 ∧ (st2.notes.length : Int) < m) ∨
    (∃ r, scanEntriesU fromTag toTag m es st = .inr r ∧
      scanEntries fromTag toTag m es st = .inr r ∧ (r.length : Int) ≤ m) := by
  intro es
  induction es with
  | nil => intro st h; exact Or.inl ⟨st, rfl, rfl, h⟩
  | cons e rest ih =>
    intro st h
    rcases scanEntry_parallel fromTag toTag m st e h with ⟨st2, hU, hC, h2⟩ | ⟨r, hU, hC, hr⟩
    · have eU : scanEntriesU fromTag toTag m (e :: rest) st =
          scanEntriesU fromTag toTag m rest st2 := by
        show (match scanEntryU fromTag toTag m st e with
              | .inl s => scanEntriesU fromTag toTag m rest s
              | .inr r => .inr r) = _
        rw [hU]
      have eC : scanEntries fromTag toTag m (e :: rest) st =
          scanEntries fromTag toTag m rest st2 := by
        show (match scanEntry fromTag toTag m st e with
              | .inl s => scanEntries fromTag toTag m rest s
              | .inr r => .inr r) = _
        rw [hC]
      rw [eU, eC]
      exact ih st2 h2
    · have eU : scanEntriesU fromTag toTag m (e :: rest) st = .inr r := by
        show (match scanEntryU fromTag toTag m st e with
              | .inl s => scanEntriesU fromTag toTag m rest s
              | .inr r => .inr r) = _
        rw [hU]
      have eC : scanEntries fromTag toTag m (e :: rest) st = .inr r := by
        show (match scanEntry fromTag toTag m st e with
              | .inl s => scanEntries fromTag toTag m rest s
              | .inr r => .inr r) = _
        rw [hC]
      exact Or.inr ⟨r, eU, eC, hr⟩

/-- The page-walk without the fallback clamp computes the same result as
the one with it, under the invariant. -/
theorem fetchPagesU_eq (fromTag toTag : Str) (m : Int) :
    ∀ (pages : List (Except AppError (List (Option Release)))) (st : ScanSt),
    (st.notes.length : Int) < m →
    fetchReleaseNotesPagesU fromTag toTag m pages st =
      fetchReleaseNotesPages fromTag toTag m pages st := by
  intro pages
  induction pages with
  | nil =>
    intro st h
    show Except.ok st.notes = Except.ok (clampReleaseNotes st.notes m)
    rw [clamp_of_le _ _ h.le]
  | cons page rest ih =>
    intro st h
    cases page with
    | error e => rfl
    | ok entries =>
      rcases scanEntries_parallel fromTag toTag m entries st h with
        ⟨st2, hU, hC, h2⟩ | ⟨r, hU, hC, _⟩
      · have eU : fetchReleaseNotesPagesU fromTag toTag m (Except.ok entries :: rest) st =
            fetchReleaseNotesPagesU fromTag toTag m rest st2 := by
          show (match scanEntriesU fromTag toTag m entries st with
                | .inr r => Except.ok r
                | .inl s => fetchReleaseNotesPagesU fromTag toTag m rest s) = _
          rw [hU]
        have eC : fetchReleaseNotesPages fromTag toTag m (Except.ok entries :: rest) st =
            fetchReleaseNotesPages fromTag toTag m rest st2 := by
          show (match scanEntries fromTag toTag m entries st with
                | .inr r => Except.ok r
                | .inl s => fetchReleaseNotesPages fromTag toTag m rest s) = _
          rw [hC]
        rw [eU, eC]
        exact ih st2 h2
      · have eU : fetchReleaseNotesPagesU fromTag toTag m (Except.ok entries :: rest) st =
            .ok r := by
          show (match scanEntriesU fromTag toTag m entries st with
                | .inr r => Except.ok r
                | .inl s => fetchReleaseNotesPagesU fromTag toTag m rest s) = _
          rw [hU]
        have eC : fetchReleaseNotesPages fromTag toTag m (Except.ok entries :: rest) st =
            .ok r := by
          show (match scanEntries fromTag toTag m entries st with
                | .inr r => Except.ok r
                | .inl s => fetchReleaseNotesPages fromTag toTag m rest s) = _
          rw [hC]
        rw [eU, eC]

/-- Every successful page-walk result respects the cap, under the
invariant. -/
theorem fetchPages_bound (fromTag toTag : Str) (m : Int) :
    ∀ (pages : List (Except AppError (List (Option Release)))) (st : ScanSt),
    (st.notes.length : Int) < m →
    ∀ notes, fetchReleaseNotesPages fromTag toTag m pages st = .ok notes →
      (notes.length : Int) ≤ m := by
  intro pages
  induction pages with
  | nil =>
    intro st h notes hok
    have : (Except.ok (clampReleaseNotes st.notes m) : Except AppError (List releaseNote)) =
        .ok notes := hok
    cases this
    rw [clamp_of_le _ _ h.le]
    exact h.le
  | cons page rest ih =>
    intro st h notes hok
    cases page with
    | error e => cases hok
    | ok entries =>
      rcases scanEntries_parallel fromTag toTag m entries st h with
        ⟨st2, _, hC, h2⟩ | ⟨r, _, hC, hr⟩
      · have eC : fetchReleaseNotesPages fromTag toTag m (Except.ok entries :: rest) st =
            fetchReleaseNotesPages fromTag toTag m rest st2 := by
          show (match scanEntries fromTag toTag m entries st with
                | .inr r => Except.ok r
                | .inl s => fetchReleaseNotesPages fromTag toTag m rest s) = _
          rw [hC]
        rw [eC] at hok
        exact ih st2 h2 notes hok
      · have eC : fetchReleaseNotesPages fromTag toTag m (Except.ok entries :: rest) st =
            .ok r := by
          show (match scanEntries fromTag toTag m entries st with
                | .inr r => Except.ok r
                | .inl s => fetchReleaseNotesPages fromTag toTag m rest s) = _
          rw [hC]
        rw [eC] at hok
        cases hok
        exact hr

/-- C2: the release-window scan is direction-independent.  Over any
all-successful paginated listing it computes exactly the spec-level
window scan (start at the first entry matching either tag, the other
tag becomes the end boundary, append in encountered order until the end
boundary or the cap); swapping `fromTag` and `toTag` never changes the
result; and on the concrete listing `[v1.1.0("B"), v1.0.0("A")]` with
`from = v1.0.0, to = v1.1.0` it collects exactly those two notes and
stops at the second entry (later entries and pages are never
inspected), while the reversed listing yields the same two notes in
encountered order. -/
theorem spec_C2 :
    (∀ (pages : List (List (Option Release))) (fromTag toTag : Str) (m : Int), 1 ≤ m →
      fetchReleaseNotes (pages.map Except.ok) fromTag toTag m =
        .ok (releaseWindowSpec fromTag toTag m (cleanEntries pages.flatten))) ∧
    (∀ (pages : List (Except AppError (List (Option Release)))) (fromTag toTag : Str) (m : Int),
      fetchReleaseNotes pages fromTag toTag m = fetchReleaseNotes pages toTag fromTag m) ∧
    (∀ (extra : List (Option Release)) (morePages : List (Except AppError (List (Option Release)))),
      fetchReleaseNotes
          (Except.ok ([some ⟨"v1.1.0".toList, "B".toList⟩, some ⟨"v1.0.0".toList, "A".toList⟩]
            ++ extra) :: morePages)
          "v1.0.0".toList "v1.1.0".toList 30 =
        .ok [⟨"v1.1.0".toList, "B".toList⟩, ⟨"v1.0.0".toList, "A".toList⟩]) ∧
    (∀ (extra : List (Option Release)) (morePages : List (Except AppError (List (Option Release)))),
      fetchReleaseNotes
          (Except.ok ([some ⟨"v1.0.0".toList, "A".toList⟩, some ⟨"v1.1.0".toList, "B".toList⟩]
            ++ extra) :: morePages)
          "v1.0.0".toList "v1.1.0".toList 30 =
        .ok [⟨"v1.0.0".toList, "A".toList⟩, ⟨"v1.1.0".toList, "B".toList⟩]) := by
  refine ⟨?_, ?_, ?_, ?_⟩
  · intro pages fromTag toTag m hm
    unfold fetchReleaseNotes
    rw [fetchPages_ok, scanEntries_eq_scanNotes, scanNotes_spec fromTag toTag m hm]
  · intro pages fromTag toTag m
    exact fetchPages_symm fromTag toTag m pages _
  · intro extra morePages
    rfl
  · intro extra morePages
    rfl

/-- Witness for C2 at the two-entry listing of the spec's example. -/
theorem spec_C2_witness :
    fetchReleaseNotes
        [Except.ok [some ⟨"v1.1.0".toList, "B".toList⟩, some ⟨"v1.0.0".toList, "A".toList⟩]]
        "v1.0.0".toList "v1.1.0".toList 30 =
      .ok (releaseWindowSpec "v1.0.0".toList "v1.1.0".toList 30
        (cleanEntries [some ⟨"v1.1.0".toList, "B".toList⟩, some ⟨"v1.0.0".toList, "A".toList⟩])) ∧
    fetchReleaseNotes
        [Except.ok [some ⟨"v1.1.0".toList, "B".toList⟩, some ⟨"v1.0.0".toList, "A".toList⟩]]
        "v1.0.0".toList "v1.1.0".toList 30 =
      fetchReleaseNotes
        [Except.ok [some ⟨"v1.1.0".toList, "B".toList⟩, some ⟨"v1.0.0".toList, "A".toList⟩]]
        "v1.1.0".toList "v1.0.0".toList 30 ∧
    fetchReleaseNotes
        [Except.ok ([some ⟨"v1.1.0".toList, "B".toList⟩, some ⟨"v1.0.0".toList, "A".toList⟩]
          ++ [])] "v1.0.0".toList "v1.1.0".toList 30 =
      .ok [⟨"v1.1.0".toList, "B".toList⟩, ⟨"v1.0.0".toList, "A".toList⟩] := by
  have hflat :
      ([[some ⟨"v1.1.0".toList, "B".toList⟩, some ⟨"v1.0.0".toList, "A".toList⟩]] :
        List (List (Option Release))).flatten =
      [some ⟨"v1.1.0".toList, "B".toList⟩, some ⟨"v1.0.0".toList, "A".toList⟩] := by
    simp
  refine ⟨?_, ?_, ?_⟩
  · have h := spec_C2.1
      [[some ⟨"v1.1.0".toList, "B".toList⟩, some ⟨"v1.0.0".toList, "A".toList⟩]]
      "v1.0.0".toList "v1.1.0".toList 30 (by omega)
    rw [hflat] at h
    exact h
  · exact spec_C2.2.1 _ "v1.0.0".toList "v1.1.0".toList 30
  · exact spec_C2.2.2.1 [] []

/-- C3: for every `maxReleases ≥ 1`, every successful scan result has at
most `maxReleases` notes, and the scan with every fallback clamp
replaced by the identity computes exactly the same function — the
clamp never removes an entry, on any page boundary. -/
theorem spec_C3 (pages : List (Except AppError (List (Option Release))))
    (fromTag toTag : Str) (m : Int) (hm : 1 ≤ m) :
    (∀ notes, fetchReleaseNotes pages fromTag toTag m = .ok notes →
      (notes.length : Int) ≤ m) ∧
    fetchReleaseNotesU pages fromTag toTag m = fetchReleaseNotes pages fromTag toTag m := by
  have h0 : ((([] : List releaseNote)).length : Int) < m := by simp; omega
  exact ⟨fun notes h => fetchPages_bound fromTag toTag m pages ⟨[], false, []⟩ h0 notes h,
    fetchPagesU_eq fromTag toTag m pages ⟨[], false, []⟩ h0⟩

/-- Witness for C3 at `maxReleases = 1` on a listing with two qualifying
entries. -/
theorem spec_C3_witness :
    fetchReleaseNotes
        [Except.ok [some ⟨"v1.1.0".toList, "B".toList⟩, some ⟨"v1.0.0".toList, "A".toList⟩]]
        "v1.0.0".toList "v1.1.0".toList 1 = .ok [⟨"v1.1.0".toList, "B".toList⟩] ∧
    (([(⟨"v1.1.0".toList, "B".toList⟩ : releaseNote)].length : Int)) ≤ 1 ∧
    fetchReleaseNotesU
        [Except.ok [some ⟨"v1.1.0".toList, "B".toList⟩, some ⟨"v1.0.0".toList, "A".toList⟩]]
        "v1.0.0".toList "v1.1.0".toList 1 =
      fetchReleaseNotes
        [Except.ok [some ⟨"v1.1.0".toList, "B".toList⟩, some ⟨"v1.0.0".toList, "A".toList⟩]]
        "v1.0.0".toList "v1.1.0".toList 1 := by
  have h := spec_C3
    [Except.ok [some ⟨"v1.1.0".toList, "B".toList⟩, some ⟨"v1.0.0".toList, "A".toList⟩]]
    "v1.0.0".toList "v1.1.0".toList 1 (by omega)
  exact ⟨by rfl, h.1 _ (by rfl), h.2⟩

/-! ### String lemmas for C5 -/

/-- Dropping leading whitespace skips a fully-whitespace block. -/
theorem dropWhile_space_append (a b : Str) (ha : ∀ c ∈ a, isSpaceC c = true) :
    List.dropWhile isSpaceC (a ++ b) = List.dropWhile isSpaceC b := by
  induction a with
  | nil => rfl
  | cons c l ih =>
    rw [List.cons_append, List.dropWhile_cons, if_pos (ha c (List.mem_cons_self c l))]
    exact ih fun x hx => ha x (List.mem_cons_of_mem _ hx)

/-- Dropping does nothing when the head fails the predicate. -/
theorem dropWhile_of_head_false (p : Char → Bool) (c : Char) (l : Str) (h : p c = false) :
    List.dropWhile p (c :: l) = c :: l := by
  rw [List.dropWhile_cons, if_neg (by simp [h])]

/-- Trimming absorbs trailing whitespace. -/
theorem trimSpaceC_append_space (l ws : Str) (h : ∀ c ∈ ws, isSpaceC c = true) :
    trimSpaceC (l ++ ws) = trimSpaceC l := by
  unfold trimSpaceC
  rw [List.dropWhile_append]
  by_cases he : (List.dropWhile isSpaceC l).isEmpty
  · rw [if_pos he]
    have hws : List.dropWhile isSpaceC ws = [] := List.dropWhile_eq_nil_iff.mpr h
    have hl : List.dropWhile isSpaceC l = [] := by
      cases hd : List.dropWhile isSpaceC l with
      | nil => rfl
      | cons a t => rw [hd] at he; simp [List.isEmpty] at he
    rw [hws, hl]
  · rw [if_neg he]
    rw [List.reverse_append, dropWhile_space_append _ _ (by intro c hc; exact h c (List.mem_reverse.mp hc))]

/-- Trimming absorbs leading whitespace. -/
theorem trimSpaceC_space_append (ws l : Str) (h : ∀ c ∈ ws, isSpaceC c = true) :
    trimSpaceC (ws ++ l) = trimSpaceC l := by
  unfold trimSpaceC
  rw [dropWhile_space_append ws l h]

/-- Trimming is the identity on a string whose first and last characters
are not whitespace (given via explicit decompositions of the string and
its reversal). -/
theorem trimSpaceC_eq_self (l : Str) (c1 : Char) (t1 : Str) (c2 : Char) (t2 : Str)
    (h1 : l = c1 :: t1) (h2 : l.reverse = c2 :: t2)
    (hc1 : isSpaceC c1 = false) (hc2 : isSpaceC c2 = false) : trimSpaceC l = l := by
  unfold trimSpaceC
  have hd1 : List.dropWhile isSpaceC l = l := by
    rw [h1]
    exact dropWhile_of_head_false _ _ _ hc1
  rw [hd1]
  have hd2 : List.dropWhile isSpaceC l.reverse = l.reverse := by
    rw [h2]
    exact dropWhile_of_head_false _ _ _ hc2
  rw [hd2, List.reverse_reverse]

/-- A suffix of a concatenation is a suffix of the right part, or spills
into the left part as a suffix of it glued to the whole right part. -/
theorem suffix_append_cases (s a b : Str) (h : List.IsSuffix s (a ++ b)) :
    List.IsSuffix s b ∨ ∃ s1, s1 ≠ [] ∧ List.IsSuffix s1 a ∧ s = s1 ++ b := by
  obtain ⟨t, ht⟩ := h
  have hlen : t.length + s.length = a.length + b.length := by
    have := congrArg List.length ht
    simpa using this
  by_cases hsb : s.length ≤ b.length
  · left
    have htl : a.length ≤ t.length := by omega
    refine ⟨t.drop a.length, ?_⟩
    have hdrop : (t ++ s).drop a.length = t.drop a.length ++ s := by
      rw [List.drop_append_eq_append_drop]
      have : a.length - t.length = 0 := by omega
      rw [this, List.drop_zero]
    have : (a ++ b).drop a.length = b := List.drop_left a b
    rw [ht] at hdrop
    rw [this] at hdrop
    exact hdrop.symm
  · right
    have htl : t.length ≤ a.length := by omega
    refine ⟨a.drop t.length, ?_, List.drop_suffix t.length a, ?_⟩
    · intro hc
      have := congrArg List.length hc
      simp at this
      omega
    · have hdrop : (a ++ b).drop t.length = a.drop t.length ++ b := by
        rw [List.drop_append_eq_append_drop]
        have : t.length - a.length = 0 := by omega
        rw [this, List.drop_zero]
      have : (t ++ s).drop t.length = s := List.drop_left t s
      rw [← ht, this] at hdrop
      exact hdrop

/-- `".git"` is not a suffix of `x ++ c` when `x` ends in a slash and it
is not a suffix of `c`. -/
theorem git_not_suffix (x c : Str) (hx : x ≠ []) (hlast : x.getLast hx = '/')
    (hc : ¬ List.IsSuffix ".git".toList c) : ¬ List.IsSuffix ".git".toList (x ++ c) := by
  intro h
  rcases suffix_append_cases _ _ _ h with h1 | ⟨s1, hne, hsuf, heq⟩
  · exact hc h1
  · obtain ⟨t2, ht2⟩ := hsuf
    subst ht2
    have hls1 : s1.getLast hne = '/' :=
      (List.getLast_append' t2 s1 hne).symm.trans hlast
    have hmem : '/' ∈ (".git".toList : Str) := by
      rw [heq]
      exact List.mem_append_left _ (hls1 ▸ List.getLast_mem hne)
    exact absurd hmem (by decide)

/-- Removing a `.git` suffix does nothing when it is not a suffix. -/
theorem trimSuffix_noGit (l : Str) (h : ¬ List.IsSuffix ".git".toList l) :
    trimSuffixStr ".git".toList l = l := by
  unfold trimSuffixStr
  rw [if_neg]
  intro hc
  exact h (List.isSuffixOf_iff_suffix.mp hc)

/-- Removing a `.git` suffix strips exactly that suffix. -/
theorem trimSuffix_git (l : Str) :
    trimSuffixStr ".git".toList (l ++ ".git".toList) = l := by
  unfold trimSuffixStr
  rw [if_pos (List.isSuffixOf_iff_suffix.mpr (List.suffix_append l ".git".toList))]
  have hlen : (l ++ ".git".toList).length - (".git".toList).length = l.length := by
    simp
  rw [hlen, List.take_left]

/-- Dropping leading slashes does nothing to a slash-free list. -/
theorem dropSlash_no (l : Str) (h : '/' ∉ l) : List.dropWhile (· = '/') l = l := by
  cases l with
  | nil => rfl
  | cons c t =>
    exact dropWhile_of_head_false _ _ _
      (by simp; intro hc; exact h (hc ▸ List.mem_cons_self c t))

/-- Slash-trimming the canonical two-segment path. -/
theorem trimSlashes_two (owner name : Str) (ho : owner ≠ []) (hos : '/' ∉ owner)
    (hn : name ≠ []) (hns : '/' ∉ name) :
    trimSlashes ('/' :: (owner ++ '/' :: name)) = owner ++ '/' :: name := by
  unfold trimSlashes
  have h1 : List.dropWhile (· = '/') ('/' :: (owner ++ '/' :: name)) =
      List.dropWhile (· = '/') (owner ++ '/' :: name) := by
    rw [List.dropWhile_cons, if_pos (by simp)]
  have h2 : List.dropWhile (· = '/') (owner ++ '/' :: name) = owner ++ '/' :: name := by
    cases owner with
    | nil => exact absurd rfl ho
    | cons c t =>
      exact dropWhile_of_head_false _ _ _
        (by simp; intro hc; exact hos (hc ▸ List.mem_cons_self c t))
  rw [h1, h2]
  have h3 : (owner ++ '/' :: name).reverse = name.reverse ++ ('/' :: owner.reverse) := by
    rw [List.append_cons, List.reverse_append, List.reverse_append]
    simp
  rw [h3]
  have h4 : List.dropWhile (· = '/') (name.reverse ++ ('/' :: owner.reverse)) =
      name.reverse ++ ('/' :: owner.reverse) := by
    cases hr : name.reverse with
    | nil => exact absurd (List.reverse_eq_nil_iff.mp hr) hn
    | cons c t =>
      rw [List.cons_append]
      refine dropWhile_of_head_false _ _ _ ?_
      simp
      intro hc
      exact hns (List.mem_reverse.mp (hr ▸ hc ▸ List.mem_cons_self c t))
  rw [h4, ← h3, List.reverse_reverse]

/-- Slash-trimming the canonical path with a trailing slash. -/
theorem trimSlashes_two_slash (owner name : Str) (ho : owner ≠ []) (hos : '/' ∉ owner)
    (hn : name ≠ []) (hns : '/' ∉ name) :
    trimSlashes ('/' :: (owner ++ '/' :: name ++ ['/'])) = owner ++ '/' :: name := by
  unfold trimSlashes
  have h1 : List.dropWhile (· = '/') ('/' :: (owner ++ '/' :: name ++ ['/'])) =
      List.dropWhile (· = '/') (owner ++ '/' :: name ++ ['/']) := by
    rw [List.dropWhile_cons, if_pos (by simp)]
  have h2 : List.dropWhile (· = '/') (owner ++ '/' :: name ++ ['/']) =
      owner ++ '/' :: name ++ ['/'] := by
    cases owner with
    | nil => exact absurd rfl ho
    | cons c t =>
      rw [List.cons_append, List.cons_append]
      refine dropWhile_of_head_false _ _ _ ?_
      simp
      intro hc
      exact hos (hc ▸ List.mem_cons_self c t)
  rw [h1, h2]
  have h3 : (owner ++ '/' :: name ++ ['/']).reverse =
      '/' :: (owner ++ '/' :: name).reverse := by
    rw [List.reverse_append]
    rfl
  rw [h3]
  rw [List.dropWhile_cons, if_pos (by simp)]
  have h4 : (owner ++ '/' :: name).reverse = name.reverse ++ ('/' :: owner.reverse) := by
    rw [List.append_cons, List.reverse_append, List.reverse_append]
    simp
  rw [h4]
  have h5 : List.dropWhile (· = '/') (name.reverse ++ ('/' :: owner.reverse)) =
      name.reverse ++ ('/' :: owner.reverse) := by
    cases hr : name.reverse with
    | nil => exact absurd (List.reverse_eq_nil_iff.mp hr) hn
    | cons c t =>
      rw [List.cons_append]
      refine dropWhile_of_head_false _ _ _ ?_
      simp
      intro hc
      exact hns (List.mem_reverse.mp (hr ▸ hc ▸ List.mem_cons_self c t))
  rw [h5, ← h4, List.reverse_reverse]

/-- Slash-trimming the canonical path with a `.git` suffix. -/
theorem trimSlashes_two_git (owner name : Str) (ho : owner ≠ []) (hos : '/' ∉ owner) :
    trimSlashes ('/' :: (owner ++ '/' :: name ++ ".git".toList)) =
      (owner ++ '/' :: name) ++ ".git".toList := by
  unfold trimSlashes
  have h1 : List.dropWhile (· = '/') ('/' :: (owner ++ '/' :: name ++ ".git".toList)) =
      List.dropWhile (· = '/') (owner ++ '/' :: name ++ ".git".toList) := by
    rw [List.dropWhile_cons, if_pos (by simp)]
  have h2 : List.dropWhile (· = '/') (owner ++ '/' :: name ++ ".git".toList) =
      owner ++ '/' :: name ++ ".git".toList := by
    cases owner with
    | nil => exact absurd rfl ho
    | cons c t =>
      rw [List.cons_append, List.cons_append]
      refine dropWhile_of_head_false _ _ _ ?_
      simp
      intro hc
      exact hos (hc ▸ List.mem_cons_self c t)
  rw [h1, h2]
  have h3 : (owner ++ '/' :: name ++ ".git".toList).reverse =
      't' :: 'i' :: 'g' :: '.' :: (owner ++ '/' :: name).reverse := by
    rw [List.reverse_append]
    rfl
  rw [h3]
  have h4 : List.dropWhile (· = '/')
      ('t' :: 'i' :: 'g' :: '.' :: (owner ++ '/' :: name).reverse) =
      't' :: 'i' :: 'g' :: '.' :: (owner ++ '/' :: name).reverse :=
    dropWhile_of_head_false _ _ _ (by decide)
  rw [h4, ← h3, List.reverse_reverse]

/-- Splitting a separator-free list yields that single segment. -/
theorem splitOnChar_no_sep (sep : Char) (l : Str) (h : sep ∉ l) :
    splitOnChar sep l = [l] := by
  induction l with
  | nil => rfl
  | cons c t ih =>
    have hc : ¬ c = sep := fun hc => h (hc ▸ List.mem_cons_self c t)
    rw [splitOnChar, if_neg (by simpa using hc),
      ih fun hx => h (List.mem_cons_of_mem _ hx)]

/-- Splitting around the first separator peels off the first segment. -/
theorem splitOnChar_sep (sep : Char) (a b : Str) (ha : sep ∉ a) :
    splitOnChar sep (a ++ sep :: b) = a :: splitOnChar sep b := by
  induction a with
  | nil =>
    rw [List.nil_append, splitOnChar, if_pos rfl]
  | cons c t ih =>
    have hc : ¬ c = sep := fun hc => ha (hc ▸ List.mem_cons_self c t)
    rw [List.cons_append, splitOnChar, if_neg (by simpa using hc),
      ih fun hx => ha (List.mem_cons_of_mem _ hx)]

/-- Reversing a list that ends in one character. -/
theorem reverse_concat_char (Z : Str) (c : Char) : (Z ++ [c]).reverse = c :: Z.reverse := by
  rw [List.reverse_append]
  rfl

/-- `parseURL` on a canonical GitHub URL prefix. -/
theorem parseURL_canonical (tail : Str) :
    parseURL ("https://github.com/".toList ++ tail) =
      some ⟨"https".toList, "github.com".toList, '/' :: tail⟩ := rfl

/-- Slash-trimming `'/' :: X` is the identity on `X` when `X` neither
starts nor ends with a slash (given via explicit decompositions). -/
theorem trimSlashes_id (X : Str) (c1 : Char) (t1 : Str) (c2 : Char) (t2 : Str)
    (h1 : X = c1 :: t1) (h2 : X.reverse = c2 :: t2) (hc1 : c1 ≠ '/') (hc2 : c2 ≠ '/') :
    trimSlashes ('/' :: X) = X := by
  unfold trimSlashes
  rw [List.dropWhile_cons, if_pos (by simp)]
  rw [h1, dropWhile_of_head_false _ _ _ (by simp [hc1]), ← h1]
  rw [h2, dropWhile_of_head_false _ _ _ (by simp [hc2]), ← h2, List.reverse_reverse]

/-- Characters survive `trimSuffixStr` only if they were in the input. -/
theorem trimSuffix_subset (s l : Str) : ∀ x ∈ trimSuffixStr s l, x ∈ l := by
  unfold trimSuffixStr
  split
  · intro x hx
    exact List.take_subset _ _ hx
  · intro x hx
    exact hx

/-- A fully-whitespace (or empty) input is rejected. -/
theorem parse_fail_empty (ws : Str) (h : ∀ c ∈ ws, isSpaceC c = true) :
    ParseGitHubRepoURL ws = .error .invalidRepoURL := by
  have htrim : trimSpaceC ws = [] := by
    unfold trimSpaceC
    rw [List.dropWhile_eq_nil_iff.mpr h]
    rfl
  simp only [ParseGitHubRepoURL]
  rw [htrim, if_pos rfl]

/-- An input whose trimmed form does not parse as a URL is rejected. -/
theorem parse_fail_noparse (s : Str) (h : parseURL (trimSpaceC s) = none) :
    ParseGitHubRepoURL s = .error .invalidRepoURL := by
  simp only [ParseGitHubRepoURL]
  by_cases he : trimSpaceC s = []
  · rw [if_pos he]
  · rw [if_neg he, h]

/-- An input whose parsed scheme is not `https` is rejected. -/
theorem parse_fail_scheme (s : Str) (u : UrlParts) (h : parseURL (trimSpaceC s) = some u)
    (hs : u.scheme ≠ "https".toList) :
    ParseGitHubRepoURL s = .error .invalidRepoURL := by
  simp only [ParseGitHubRepoURL]
  by_cases he : trimSpaceC s = []
  · rw [if_pos he]
  · rw [if_neg he, h]
    dsimp only
    rw [if_pos hs]

/-- An input whose parsed host does not case-fold to `github.com`
(any subdomain or alternate host) is rejected. -/
theorem parse_fail_host (s : Str) (u : UrlParts) (h : parseURL (trimSpaceC s) = some u)
    (hh : eqFold u.host "github.com".toList = false) :
    ParseGitHubRepoURL s = .error .invalidRepoURL := by
  by_cases hs : u.scheme ≠ "https".toList
  · exact parse_fail_scheme s u h hs
  · simp only [ParseGitHubRepoURL]
    by_cases he : trimSpaceC s = []
    · rw [if_pos he]
    · rw [if_neg he, h]
      dsimp only
      rw [if_neg hs, if_pos (by rw [hh]; simp)]

/-- Every canonical repository URL — optional surrounding whitespace,
`https` scheme, `github.com` host, two non-empty slash-free segments,
optional trailing slash or `.git` suffix — resolves to `(owner, name)`. -/
theorem ParseGitHubRepoURL_valid (ws1 ws2 owner name suffix : Str)
    (hw1 : ∀ c ∈ ws1, isSpaceC c = true) (hw2 : ∀ c ∈ ws2, isSpaceC c = true)
    (ho : owner ≠ []) (hn : name ≠ [])
    (hos : '/' ∉ owner) (hns : '/' ∉ name)
    (hnw : ∀ c ∈ name, isSpaceC c = false)
    (hgit : ¬ List.IsSuffix ".git".toList name)
    (hsuf : suffix = [] ∨ suffix = ['/'] ∨ suffix = ".git".toList) :
    ParseGitHubRepoURL
        (ws1 ++ ("https://github.com/".toList ++ (owner ++ '/' :: name ++ suffix)) ++ ws2) =
      .ok (owner, name) := by
  have hxne : (owner ++ ['/'] : Str) ≠ [] := by simp
  have hlastx : (owner ++ ['/']).getLast hxne = '/' := by
    rw [List.getLast_append' owner ['/'] (by simp)]
    rfl
  have hgitpath : ¬ List.IsSuffix ".git".toList (owner ++ '/' :: name) := by
    rw [List.append_cons]
    exact git_not_suffix (owner ++ ['/']) name hxne hlastx hgit
  rcases hsuf with rfl | rfl | rfl
  · rw [List.append_nil]
    have hname : name.dropLast ++ [name.getLast hn] = name := List.dropLast_append_getLast hn
    have hsplit : ("https://github.com/".toList ++ (owner ++ '/' :: name)) =
        ("https://github.com/".toList ++ (owner ++ '/' :: name.dropLast)) ++
          [name.getLast hn] := by
      conv_lhs => rw [← hname]
      simp [List.append_assoc]
    have hrev : ("https://github.com/".toList ++ (owner ++ '/' :: name)).reverse =
        name.getLast hn ::
          ("https://github.com/".toList ++ (owner ++ '/' :: name.dropLast)).reverse := by
      rw [hsplit, reverse_concat_char]
    have htrim :
        trimSpaceC (ws1 ++ ("https://github.com/".toList ++ (owner ++ '/' :: name)) ++ ws2) =
        "https://github.com/".toList ++ (owner ++ '/' :: name) := by
      rw [trimSpaceC_append_space _ _ hw2, trimSpaceC_space_append _ _ hw1]
      exact trimSpaceC_eq_self _ 'h' _ _ _ rfl hrev (by decide) (hnw _ (List.getLast_mem hn))
    have hne : "https://github.com/".toList ++ (owner ++ '/' :: name) ≠ [] := by
      rw [show "https://github.com/".toList ++ (owner ++ '/' :: name) =
        'h' :: ("ttps://github.com/".toList ++ (owner ++ '/' :: name)) from rfl]
      simp
    simp only [ParseGitHubRepoURL]
    rw [htrim, if_neg hne, parseURL_canonical]
    dsimp only
    rw [if_neg (by decide), if_neg (by decide)]
    rw [trimSlashes_two owner name ho hos hn hns]
    rw [if_neg (by simp)]
    rw [trimSuffix_noGit _ hgitpath]
    rw [splitOnChar_sep '/' owner name hos, splitOnChar_no_sep '/' name hns]
    dsimp only
    rw [if_neg (by simp [ho, hn])]
  · have hsplit : ("https://github.com/".toList ++ (owner ++ '/' :: name ++ ['/'])) =
        ("https://github.com/".toList ++ (owner ++ '/' :: name)) ++ ['/'] := by
      simp [List.append_assoc]
    have hrev : ("https://github.com/".toList ++ (owner ++ '/' :: name ++ ['/'])).reverse =
        '/' :: ("https://github.com/".toList ++ (owner ++ '/' :: name)).reverse := by
      rw [hsplit, reverse_concat_char]
    have htrim : trimSpaceC (ws1 ++
        ("https://github.com/".toList ++ (owner ++ '/' :: name ++ ['/'])) ++ ws2) =
        "https://github.com/".toList ++ (owner ++ '/' :: name ++ ['/']) := by
      rw [trimSpaceC_append_space _ _ hw2, trimSpaceC_space_append _ _ hw1]
      exact trimSpaceC_eq_self _ 'h' _ _ _ rfl hrev (by decide) (by decide)
    have hne : "https://github.com/".toList ++ (owner ++ '/' :: name ++ ['/']) ≠ [] := by
      rw [show "https://github.com/".toList ++ (owner ++ '/' :: name ++ ['/']) =
        'h' :: ("ttps://github.com/".toList ++ (owner ++ '/' :: name ++ ['/'])) from rfl]
      simp
    simp only [ParseGitHubRepoURL]
    rw [htrim, if_neg hne, parseURL_canonical]
    dsimp only
    rw [if_neg (by decide), if_neg (by decide)]
    rw [trimSlashes_two_slash owner name ho hos hn hns]
    rw [if_neg (by simp)]
    rw [trimSuffix_noGit _ hgitpath]
    rw [splitOnChar_sep '/' owner name hos, splitOnChar_no_sep '/' name hns]
    dsimp only
    rw [if_neg (by simp [ho, hn])]
  · have hgit4 : (".git".toList : Str) = ".gi".toList ++ ['t'] := rfl
    have hsplit :
        ("https://github.com/".toList ++ (owner ++ '/' :: name ++ ".git".toList)) =
        ("https://github.com/".toList ++ (owner ++ '/' :: name ++ ".gi".toList)) ++ ['t'] := by
      rw [hgit4]
      simp [List.append_assoc]
    have hrev :
        ("https://github.com/".toList ++ (owner ++ '/' :: name ++ ".git".toList)).reverse =
        't' :: ("https://github.com/".toList ++ (owner ++ '/' :: name ++ ".gi".toList)).reverse := by
      rw [hsplit, reverse_concat_char]
    have htrim : trimSpaceC (ws1 ++
        ("https://github.com/".toList ++ (owner ++ '/' :: name ++ ".git".toList)) ++ ws2) =
        "https://github.com/".toList ++ (owner ++ '/' :: name ++ ".git".toList) := by
      rw [trimSpaceC_append_space _ _ hw2, trimSpaceC_space_append _ _ hw1]
      exact trimSpaceC_eq_self _ 'h' _ _ _ rfl hrev (by decide) (by decide)
    have hne : "https://github.com/".toList ++ (owner ++ '/' :: name ++ ".git".toList) ≠ [] := by
      rw [show "https://github.com/".toList ++ (owner ++ '/' :: name ++ ".git".toList) =
        'h' :: ("ttps://github.com/".toList ++ (owner ++ '/' :: name ++ ".git".toList)) from rfl]
      simp
    simp only [ParseGitHubRepoURL]
    rw [htrim, if_neg hne, parseURL_canonical]
    dsimp only
    rw [if_neg (by decide), if_neg (by decide)]
    rw [trimSlashes_two_git owner name ho hos]
    rw [if_neg (by simp)]
    rw [trimSuffix_git (owner ++ '/' :: name)]
    rw [splitOnChar_sep '/' owner name hos, splitOnChar_no_sep '/' name hns]
    dsimp only
    rw [if_neg (by simp [ho, hn])]

/-- A canonical-host URL with a single path segment is rejected (wrong
segment count). -/
theorem parse_fail_one_segment (seg : Str) (hs : '/' ∉ seg)
    (hw : ∀ c ∈ seg, isSpaceC c = false) :
    ParseGitHubRepoURL ("https://github.com/".toList ++ seg) = .error .invalidRepoURL := by
  by_cases hseg : seg = []
  · subst hseg
    rw [List.append_nil]
    rfl
  · have hsplit : ("https://github.com/".toList ++ seg) =
        ("https://github.com/".toList ++ seg.dropLast) ++ [seg.getLast hseg] := by
      conv_lhs => rw [← List.dropLast_append_getLast hseg]
      simp [List.append_assoc]
    have hrev : ("https://github.com/".toList ++ seg).reverse =
        seg.getLast hseg :: ("https://github.com/".toList ++ seg.dropLast).reverse := by
      rw [hsplit, reverse_concat_char]
    have htrim : trimSpaceC ("https://github.com/".toList ++ seg) =
        "https://github.com/".toList ++ seg :=
      trimSpaceC_eq_self _ 'h' _ _ _ rfl hrev (by decide) (hw _ (List.getLast_mem hseg))
    have hne : "https://github.com/".toList ++ seg ≠ [] := by
      rw [show "https://github.com/".toList ++ seg =
        'h' :: ("ttps://github.com/".toList ++ seg) from rfl]
      simp
    have htsl : trimSlashes ('/' :: seg) = seg := by
      unfold trimSlashes
      rw [List.dropWhile_cons, if_pos (by simp), dropSlash_no seg hs,
        dropSlash_no _ (fun hc => hs (List.mem_reverse.mp hc)), List.reverse_reverse]
    simp only [ParseGitHubRepoURL]
    rw [htrim, if_neg hne, parseURL_canonical]
    dsimp only
    rw [if_neg (by decide), if_neg (by decide)]
    rw [htsl, if_neg hseg]
    rw [splitOnChar_no_sep '/' (trimSuffixStr ".git".toList seg)
      (fun hc => hs (trimSuffix_subset _ _ _ hc))]

/-- A canonical-host URL with three path segments is rejected (wrong
segment count). -/
theorem parse_fail_three_segments (a b c : Str) (ha : a ≠ []) (hcne : c ≠ [])
    (has : '/' ∉ a) (hbs : '/' ∉ b) (hcs : '/' ∉ c)
    (hwc : ∀ ch ∈ c, isSpaceC ch = false)
    (hgit : ¬ List.IsSuffix ".git".toList c) :
    ParseGitHubRepoURL ("https://github.com/".toList ++ (a ++ '/' :: (b ++ '/' :: c))) =
      .error .invalidRepoURL := by
  have hsplit : ("https://github.com/".toList ++ (a ++ '/' :: (b ++ '/' :: c))) =
      ("https://github.com/".toList ++ (a ++ '/' :: (b ++ '/' :: c.dropLast))) ++
        [c.getLast hcne] := by
    conv_lhs => rw [← List.dropLast_append_getLast hcne]
    simp [List.append_assoc]
  have hrev : ("https://github.com/".toList ++ (a ++ '/' :: (b ++ '/' :: c))).reverse =
      c.getLast hcne ::
        ("https://github.com/".toList ++ (a ++ '/' :: (b ++ '/' :: c.dropLast))).reverse := by
    rw [hsplit, reverse_concat_char]
  have htrim : trimSpaceC ("https://github.com/".toList ++ (a ++ '/' :: (b ++ '/' :: c))) =
      "https://github.com/".toList ++ (a ++ '/' :: (b ++ '/' :: c)) :=
    trimSpaceC_eq_self _ 'h' _ _ _ rfl hrev (by decide) (hwc _ (List.getLast_mem hcne))
  have hne : "https://github.com/".toList ++ (a ++ '/' :: (b ++ '/' :: c)) ≠ [] := by
    rw [show "https://github.com/".toList ++ (a ++ '/' :: (b ++ '/' :: c)) =
      'h' :: ("ttps://github.com/".toList ++ (a ++ '/' :: (b ++ '/' :: c))) from rfl]
    simp
  have hXsplit : (a ++ '/' :: (b ++ '/' :: c)) =
      (a ++ '/' :: (b ++ '/' :: c.dropLast)) ++ [c.getLast hcne] := by
    conv_lhs => rw [← List.dropLast_append_getLast hcne]
    simp [List.append_assoc]
  have hXrev : (a ++ '/' :: (b ++ '/' :: c)).reverse =
      c.getLast hcne :: (a ++ '/' :: (b ++ '/' :: c.dropLast)).reverse := by
    rw [hXsplit, reverse_concat_char]
  have hXhead : ∃ t1, (a ++ '/' :: (b ++ '/' :: c)) = a.head ha :: t1 := by
    cases a with
    | nil => exact absurd rfl ha
    | cons x t => exact ⟨t ++ '/' :: (b ++ '/' :: c), rfl⟩
  obtain ⟨t1, ht1⟩ := hXhead
  have htsl : trimSlashes ('/' :: (a ++ '/' :: (b ++ '/' :: c))) =
      a ++ '/' :: (b ++ '/' :: c) := by
    refine trimSlashes_id _ (a.head ha) t1 (c.getLast hcne) _ ht1 hXrev ?_ ?_
    · intro hx
      exact has (hx ▸ List.head_mem ha)
    · intro hx
      exact hcs (hx ▸ List.getLast_mem hcne)
  have hshape : (a ++ '/' :: (b ++ '/' :: c)) = ((a ++ '/' :: b) ++ ['/']) ++ c := by
    simp [List.append_assoc]
  have hgitpath : ¬ List.IsSuffix ".git".toList (a ++ '/' :: (b ++ '/' :: c)) := by
    rw [hshape]
    refine git_not_suffix _ _ (by simp) ?_ hgit
    rw [List.getLast_append' _ ['/'] (by simp)]
    rfl
  simp only [ParseGitHubRepoURL]
  rw [htrim, if_neg hne, parseURL_canonical]
  dsimp only
  rw [if_neg (by decide), if_neg (by decide)]
  rw [htsl]
  rw [if_neg (by simp)]
  rw [trimSuffix_noGit _ hgitpath]
  rw [splitOnChar_sep '/' a _ has, splitOnChar_sep '/' b _ hbs, splitOnChar_no_sep '/' c hcs]

/-- C5: `ParseGitHubRepoURL` accepts exactly the canonical shapes.  Every
`https://github.com/<owner>/<name>` input with non-empty slash-free
segments — optionally surrounded by whitespace, with a trailing slash,
or with a `.git` suffix — resolves to `(owner, name)`; and the failure
categories (empty/whitespace input, unparseable input, wrong scheme,
wrong host including any subdomain, wrong segment count, empty segment)
all fail with the single `InvalidRepoURL` kind. -/
theorem spec_C5 :
    (∀ ws1 ws2 owner name suffix : Str,
      (∀ c ∈ ws1, isSpaceC c = true) → (∀ c ∈ ws2, isSpaceC c = true) →
      owner ≠ [] → name ≠ [] → '/' ∉ owner → '/' ∉ name →
      (∀ c ∈ name, isSpaceC c = false) → ¬ List.IsSuffix ".git".toList name →
      (suffix = [] ∨ suffix = ['/'] ∨ suffix = ".git".toList) →
      ParseGitHubRepoURL
          (ws1 ++ ("https://github.com/".toList ++ (owner ++ '/' :: name ++ suffix)) ++ ws2) =
        .ok (owner, name)) ∧
    (∀ ws : Str, (∀ c ∈ ws, isSpaceC c = true) →
      ParseGitHubRepoURL ws = .error .invalidRepoURL) ∧
    (∀ s : Str, parseURL (trimSpaceC s) = none →
      ParseGitHubRepoURL s = .error .invalidRepoURL) ∧
    (∀ (s : Str) (u : UrlParts), parseURL (trimSpaceC s) = some u →
      u.scheme ≠ "https".toList → ParseGitHubRepoURL s = .error .invalidRepoURL) ∧
    (∀ (s : Str) (u : UrlParts), parseURL (trimSpaceC s) = some u →
      eqFold u.host "github.com".toList = false →
      ParseGitHubRepoURL s = .error .invalidRepoURL) ∧
    (∀ seg : Str, '/' ∉ seg → (∀ c ∈ seg, isSpaceC c = false) →
      ParseGitHubRepoURL ("https://github.com/".toList ++ seg) = .error .invalidRepoURL) ∧
    (∀ a b c : Str, a ≠ [] → c ≠ [] → '/' ∉ a → '/' ∉ b → '/' ∉ c →
      (∀ ch ∈ c, isSpaceC ch = false) → ¬ List.IsSuffix ".git".toList c →
      ParseGitHubRepoURL ("https://github.com/".toList ++ (a ++ '/' :: (b ++ '/' :: c))) =
        .error .invalidRepoURL) ∧
    ParseGitHubRepoURL "https://github.com//hello".toList = .error .invalidRepoURL ∧
    ParseGitHubRepoURL "https://github.com/octo//hello".toList = .error .invalidRepoURL ∧
    ParseGitHubRepoURL "https://github.com/".toList = .error .invalidRepoURL := by
  refine ⟨ParseGitHubRepoURL_valid, parse_fail_empty, parse_fail_noparse, parse_fail_scheme,
    parse_fail_host, parse_fail_one_segment, parse_fail_three_segments, by rfl, by rfl, by rfl⟩

/-- Witness for C5 at concrete URLs covering the accepted shape and each
rejection category. -/
theorem spec_C5_witness :
    ParseGitHubRepoURL
        (" ".toList ++ ("https://github.com/".toList ++
          ("octo".toList ++ '/' :: "hello".toList ++ ".git".toList)) ++ []) =
      .ok ("octo".toList, "hello".toList) ∧
    ParseGitHubRepoURL "".toList = .error .invalidRepoURL ∧
    ParseGitHubRepoURL "github.com/octo/hello".toList = .error .invalidRepoURL ∧
    ParseGitHubRepoURL "http://github.com/octo/hello".toList = .error .invalidRepoURL ∧
    ParseGitHubRepoURL "https://gitlab.com/octo/hello".toList = .error .invalidRepoURL ∧
    ParseGitHubRepoURL "https://www.github.com/octo/hello".toList = .error .invalidRepoURL ∧
    ParseGitHubRepoURL ("https://github.com/".toList ++ "octo".toList) =
      .error .invalidRepoURL ∧
    ParseGitHubRepoURL ("https://github.com/".toList ++
        ("octo".toList ++ '/' :: ("hello".toList ++ '/' :: "extra".toList))) =
      .error .invalidRepoURL := by
  refine ⟨?_, ?_, ?_, ?_, ?_, ?_, ?_, ?_⟩
  · exact spec_C5.1 " ".toList [] "octo".toList "hello".toList ".git".toList
      (by decide) (by decide) (by decide) (by decide) (by decide) (by decide) (by decide)
      (by intro h; exact absurd (List.isSuffixOf_iff_suffix.mpr h) (by decide))
      (Or.inr (Or.inr rfl))
  · exact spec_C5.2.1 "".toList (by decide)
  · exact spec_C5.2.2.1 "github.com/octo/hello".toList (by rfl)
  · exact spec_C5.2.2.2.1 "http://github.com/octo/hello".toList
      ⟨"http".toList, "github.com".toList, "/octo/hello".toList⟩ (by rfl) (by decide)
  · exact spec_C5.2.2.2.2.1 "https://gitlab.com/octo/hello".toList
      ⟨"https".toList, "gitlab.com".toList, "/octo/hello".toList⟩ (by rfl) (by decide)
  · exact spec_C5.2.2.2.2.1 "https://www.github.com/octo/hello".toList
      ⟨"https".toList, "www.github.com".toList, "/octo/hello".toList⟩ (by rfl) (by decide)
  · exact spec_C5.2.2.2.2.2.1 "octo".toList (by decide) (by decide)
  · exact spec_C5.2.2.2.2.2.2.1 "octo".toList "hello".toList "extra".toList
      (by decide) (by decide) (by decide) (by decide) (by decide) (by decide)
      (by intro h; exact absurd (List.isSuffixOf_iff_suffix.mpr h) (by decide))

end DiffBreak
